import Mathlib

/-
Verification of the AQC (Approximate Quantum Compiler) numerical core:
CNOT-structure generation (cnot_structures.py), the parametric circuit
matrix model (parametric_circuit.py), the default gradient backend
(gradient.py), the facade defaults (aqc.py) and the bit-permutation
utilities (fast_gradient/fast_grad_utils.py).

Modelling conventions:
* numpy integer matrices of shape (2, L) holding qubit-index pairs are
  embedded as lists of pairs, one pair per column;
* Python exceptions are modelled by an explicit error type and functions
  returning Except; a while-loop that can run forever is modelled with an
  explicit fuel argument, where the result none for every fuel value means
  the loop never terminates;
* Python ints are embedded as Nat or Int (matching sign behaviour at each
  call site); numpy float64 arithmetic is embedded as exact arithmetic over
  Rat or Real (float rounding itself is not modelled);
* complex matrices are embedded as Matrix (Fin d) (Fin d) Complex.
-/

deriving instance DecidableEq for Except

namespace AQCVerify

/-- The kinds of Python exceptions raised (or hit) by the embedded code. -/
inductive PyErr
  | assertionError (msg : String)
  | valueError (msg : String)
  | nameError (msg : String)
  deriving DecidableEq, Repr

/-- The set _NETWORK_LAYOUTS of cnot_structures.py (line 21), as the list
returned by get_network_layouts. -/
def get_network_layouts : List String :=
  ["sequ", "spin", "cart", "cyclic_spin", "cyclic_line"]

/-- The set _CONNECTIVITY_TYPES of cnot_structures.py (line 22), as the list
returned by get_connectivity_types. -/
def get_connectivity_types : List String :=
  ["full", "line", "star"]

/-- lower_limit from cnot_structures.py (lines 52-65):
asserts num_qubits >= 2, then returns
round(np.ceil((4 ** num_qubits - 3 * num_qubits - 1) / 4.0)).
The float64 division is embedded as exact rational arithmetic. -/
def lower_limit (num_qubits : ℕ) : Except PyErr ℤ :=
  if 2 ≤ num_qubits then
    .ok (round ((⌈((4 : ℚ) ^ num_qubits - 3 * num_qubits - 1) / 4⌉ : ℤ) : ℚ))
  else
    .error (.assertionError "lower_limit requires num_qubits >= 2")

/-- get_connectivity from cnot_structures.py (lines 196-235). The Python dict
of links (keys 1..num_qubits) is embedded as a function from a qubit index to
its link list; values at keys the dict does not hold are never read by the
callers. Note the num_qubits == 1 branch comes first and ignores the
connectivity string entirely. -/
def get_connectivity (num_qubits : ℕ) (connectivity : String) :
    Except PyErr (ℕ → List ℕ) :=
  if num_qubits = 1 then
    .ok fun _ => [1]
  else if connectivity = "full" then
    .ok fun _ => (List.range num_qubits).map (· + 1)
  else if connectivity = "line" then
    .ok fun q =>
      if q = 1 then [1, 2]
      else if q = num_qubits then [num_qubits - 1, num_qubits]
      else [q - 1, q, q + 1]
  else if connectivity = "star" then
    .ok fun q =>
      if q = 1 then (List.range num_qubits).map (· + 1)
      else [1, q]
  else
    .error (.valueError ("unknown connectivity type, expects one of " ++
      toString get_connectivity_types ++ ", got " ++ connectivity))

/-- One full sweep of the nested for loops of _sequential_network
(cnot_structures.py lines 253-261): all pairs (i, j) with
1 <= i < j <= num_qubits and j in links i, in row-major order. -/
def seqPass (num_qubits : ℕ) (links : ℕ → List ℕ) : List (ℕ × ℕ) :=
  (List.range' 1 (num_qubits - 1)).flatMap fun i =>
    ((List.range' (i + 1) (num_qubits - i)).filter fun j =>
      decide (j ∈ links i)).map fun j => (i, j)

/-- One full sweep of the two for loops of _spin_network
(cnot_structures.py lines 277-290): pairs (i, i+1) for i = 1, 3, 5, ...
below num_qubits, then for i = 2, 4, ... below num_qubits. -/
def spinPass (num_qubits : ℕ) : List (ℕ × ℕ) :=
  ((List.range' 1 (num_qubits / 2) 2).map fun i => (i, i + 1)) ++
  ((List.range' 2 ((num_qubits - 1) / 2) 2).map fun i => (i, i + 1))

/-- One full sweep of the two for loops of the cyclic_spin branch of
make_cnot_network (cnot_structures.py lines 127-148), before the final
cnots += 1. The first loop emits (i, i+1) for even i with i+1 <= n-1; the
second emits (i, i+1) for odd i with i+1 <= n-1 and (i, 0) for i = n-1 odd. -/
def cyclicSpinPass (num_qubits : ℕ) : List (ℕ × ℕ) :=
  ((List.range' 0 ((num_qubits + 1) / 2) 2).filterMap fun i =>
    if i + 1 ≤ num_qubits - 1 then some (i, i + 1) else none) ++
  ((List.range' 1 (num_qubits / 2) 2).filterMap fun i =>
    if i + 1 ≤ num_qubits - 1 then some (i, i + 1)
    else if i = num_qubits - 1 then some (i, 0) else none)

/-- The shared shape of the while True emission loops of
_sequential_network, _spin_network and the cyclic_spin branch: each sweep
appends the pass and the loop returns the first depth entries as soon as at
least depth entries exist (the Python code checks the running count after
every single emission, which returns exactly the same prefix). One unit of
fuel is one sweep; none models the Python loop never returning, which is
what happens when a sweep emits nothing. -/
def emitLoop (pass : List (ℕ × ℕ)) (depth : ℕ) :
    ℕ → List (ℕ × ℕ) → Option (List (ℕ × ℕ))
  | 0, acc =>
      if depth ≤ acc.length then some (acc.take depth) else none
  | fuel + 1, acc =>
      if depth ≤ acc.length then some (acc.take depth)
      else emitLoop pass depth fuel (acc ++ pass)

/-- _sequential_network from cnot_structures.py (lines 238-261); the
assert depth > 0 is kept, the assert on the dict being nonempty always
holds for the function model. -/
def _sequential_network (num_qubits : ℕ) (links : ℕ → List ℕ) (depth : ℕ)
    (fuel : ℕ) : Option (Except PyErr (List (ℕ × ℕ))) :=
  if depth = 0 then some (.error (.assertionError "depth > 0")) else
  (emitLoop (seqPass num_qubits links) depth fuel []).map .ok

/-- _spin_network from cnot_structures.py (lines 264-290). -/
def _spin_network (num_qubits : ℕ) (depth : ℕ) (fuel : ℕ) :
    Option (List (ℕ × ℕ)) :=
  emitLoop (spinPass num_qubits) depth fuel []

/-- mult[0, -1] -= 1 from cnot_structures.py line 313: subtract one from the
first component of the last column. -/
def decLastFst : List (ℕ × ℕ) → List (ℕ × ℕ)
  | [] => []
  | [p] => [(p.1 - 1, p.2)]
  | p :: q :: rest => p :: decLastFst (q :: rest)

/-- One iteration of the expansion loop of _cartan_network
(cnot_structures.py lines 311-314):
cnots := hstack(tile(hstack(cnots, mult), 3), cnots);
mult[0, -1] -= 1; mult := tile(mult, 2). -/
def cartStep (cm : List (ℕ × ℕ) × List (ℕ × ℕ)) :
    List (ℕ × ℕ) × List (ℕ × ℕ) :=
  let c := cm.1
  let m := cm.2
  let c' := (c ++ m) ++ (c ++ m) ++ (c ++ m) ++ c
  let m' := decLastFst m
  (c', m' ++ m')

/-- The hardcoded n = 3 Cartan base matrix of cnot_structures.py
(lines 316-321), column by column. -/
def cartanBase3 : List (ℕ × ℕ) :=
  [(1, 2), (1, 2), (1, 2), (2, 3), (1, 3), (2, 3), (1, 2), (1, 2), (1, 2),
   (2, 3), (1, 3), (2, 3), (1, 3), (1, 2), (1, 2), (1, 2), (2, 3), (1, 3),
   (2, 3), (1, 2), (1, 2), (1, 2)]

/-- _cartan_network from cnot_structures.py (lines 293-325). For n > 3 the
seed is the 3-column matrix [[1,1,1],[2,2,2]] with
mult = [[n-1,n-2,n-1,n-2],[n,n,n,n]], expanded n-2 times. -/
def _cartan_network (num_qubits : ℕ) : Except PyErr (List (ℕ × ℕ)) :=
  let n := num_qubits
  if 3 < n then
    .ok ((cartStep^[n - 2]
      ([(1, 2), (1, 2), (1, 2)],
       [(n - 1, n), (n - 2, n), (n - 1, n), (n - 2, n)])).1)
  else if n = 3 then
    .ok cartanBase3
  else
    .error (.valueError ("The number of qubits must be >= 3, got " ++
      toString n ++ "."))

/-- make_cnot_network from cnot_structures.py (lines 68-164). depth is a
Python int (may be non-positive); a non-positive depth is replaced by
lower_limit(num_qubits), which asserts num_qubits >= 2. fuel bounds the
number of sweeps of the while True loops; none means the Python call never
returns. -/
def make_cnot_network (num_qubits : ℕ) (network_layout : String)
    (connectivity_type : String) (depth : ℤ) (fuel : ℕ) :
    Option (Except PyErr (List (ℕ × ℕ))) :=
  let depthE : Except PyErr ℕ :=
    if depth ≤ 0 then (lower_limit num_qubits).map Int.toNat
    else .ok depth.toNat
  match depthE with
  | .error e => some (.error e)
  | .ok d =>
    if network_layout = "sequ" then
      match get_connectivity num_qubits connectivity_type with
      | .error e => some (.error e)
      | .ok links => _sequential_network num_qubits links d fuel
    else if network_layout = "spin" then
      (_spin_network num_qubits d fuel).map .ok
    else if network_layout = "cart" then
      some (_cartan_network num_qubits)
    else if network_layout = "cyclic_spin" then
      if connectivity_type = "full" then
        ((emitLoop (cyclicSpinPass num_qubits) d fuel []).map fun t =>
          .ok (t.map fun p => (p.1 + 1, p.2 + 1)))
      else
        some (.error (.assertionError
          ("'" ++ network_layout ++ "' layout expects 'full' connectivity")))
    else if network_layout = "cyclic_line" then
      if connectivity_type = "line" then
        some (.ok ((List.range d).map fun i =>
          (i % num_qubits + 1, (i + 1) % num_qubits + 1)))
      else
        some (.error (.assertionError
          ("'" ++ network_layout ++ "' layout expects 'line' connectivity")))
    else
      some (.error (.valueError
        ("unknown type of CNOT-network layout, expects one of " ++
         toString get_network_layouts ++ ", got " ++ network_layout)))

/-- A column of a CNOT structure is valid for num_qubits when it holds two
distinct 1-based indices in range (check_cnots, cnot_structures.py 28-39). -/
def validColumn (num_qubits : ℕ) (p : ℕ × ℕ) : Prop :=
  p.1 ≠ p.2 ∧ 1 ≤ p.1 ∧ p.1 ≤ num_qubits ∧ 1 ≤ p.2 ∧ p.2 ≤ num_qubits

instance (num_qubits : ℕ) (p : ℕ × ℕ) : Decidable (validColumn num_qubits p) := by
  unfold validColumn; infer_instance

/-- The invariant carried through the expansion loop of _cartan_network:
after t iterations the accumulated columns are valid, the mult columns are
(a, n) with n-2-t <= a <= n-1, and the lengths follow the closed forms
len(cnots) = 9*4^t - 6*2^t and len(mult) = 4*2^t. -/
def cartInv (n t : ℕ) (cm : List (ℕ × ℕ) × List (ℕ × ℕ)) : Prop :=
  (∀ p ∈ cm.1, validColumn n p) ∧
  (∀ p ∈ cm.2, p.2 = n ∧ n - 2 - t ≤ p.1 ∧ p.1 ≤ n - 1) ∧
  cm.1.length + 6 * 2 ^ t = 9 * 4 ^ t ∧ cm.2.length = 4 * 2 ^ t

/-- The layout dispatch of make_cnot_network after the depth has been
resolved to the natural number d. -/
def makeDispatch (num_qubits : ℕ) (network_layout connectivity_type : String)
    (d : ℕ) (fuel : ℕ) : Option (Except PyErr (List (ℕ × ℕ))) :=
  if network_layout = "sequ" then
    match get_connectivity num_qubits connectivity_type with
    | .error e => some (.error e)
    | .ok links => _sequential_network num_qubits links d fuel
  else if network_layout = "spin" then
    (_spin_network num_qubits d fuel).map .ok
  else if network_layout = "cart" then
    some (_cartan_network num_qubits)
  else if network_layout = "cyclic_spin" then
    if connectivity_type = "full" then
      ((emitLoop (cyclicSpinPass num_qubits) d fuel []).map fun t =>
        .ok (t.map fun p => (p.1 + 1, p.2 + 1)))
    else
      some (.error (.assertionError
        ("'" ++ network_layout ++ "' layout expects 'full' connectivity")))
  else if network_layout = "cyclic_line" then
    if connectivity_type = "line" then
      some (.ok ((List.range d).map fun i =>
        (i % num_qubits + 1, (i + 1) % num_qubits + 1)))
    else
      some (.error (.assertionError
        ("'" ++ network_layout ++ "' layout expects 'line' connectivity")))
  else
    some (.error (.valueError
      ("unknown type of CNOT-network layout, expects one of " ++
       toString get_network_layouts ++ ", got " ++ network_layout)))

/-- The embedded make_cnot_network call returns none at every fuel value,
i.e. the Python while True loop never returns. -/
def make_cnot_network_diverges (n : ℕ) (layout conn : String)
    (depth : ℤ) : Prop :=
  ∀ fuel, make_cnot_network n layout conn depth fuel = none

/-- Python `x or default` for an int hyperparameter: a falsy value (0, and
None is also falsy) is replaced by the default, a truthy value is kept. -/
def pyOr (x dflt : ℕ) : ℕ :=
  if x ≠ 0 then x else dflt

/-- Python `x or default` for a float hyperparameter, over exact rationals. -/
def pyOrRat (x dflt : ℚ) : ℚ :=
  if x ≠ 0 then x else dflt

/-- The hyperparameter state held by the AQC facade (aqc.py lines 45-50). -/
structure AQCState where
  method : String
  maxiter : ℕ
  eta : ℚ
  tol : ℚ
  eps : ℚ
  deriving DecidableEq

/-- The constructor defaults of AQC.__init__ (aqc.py lines 28-35):
method nesterov, maxiter 100, eta 0.1, tol 1e-5, eps 0 (floats embedded as
exact rationals). -/
def AQC.defaults : AQCState :=
  ⟨"nesterov", 100, 1 / 10, 1 / 100000, 0⟩

/-- AQC._compute_optional_parameters (aqc.py lines 79-94): the branches are
num_qubits <= 3, num_qubits == 4, num_qubits >= 5, and each uses the Python
`self._maxiter or table` / `self._eta or table` fallback. The float table
entries 0.1, 0.06, 0.03 are embedded as exact rationals. -/
def _compute_optional_parameters (st : AQCState) (num_qubits : ℕ) :
    AQCState :=
  if num_qubits ≤ 3 then
    { st with maxiter := pyOr st.maxiter 200, eta := pyOrRat st.eta (1 / 10) }
  else if num_qubits = 4 then
    { st with maxiter := pyOr st.maxiter 350, eta := pyOrRat st.eta (3 / 50) }
  else
    { st with maxiter := pyOr st.maxiter 500, eta := pyOrRat st.eta (3 / 100) }

/-- The qubit-count derivation of AQC.compile_unitary (aqc.py line 69):
num_qubits = int(round(np.log2(target_matrix.shape[0]))). No validation of
the side length is performed before or after this line. -/
noncomputable def compile_unitary_num_qubits (side : ℕ) : ℤ :=
  round (Real.logb 2 side)

/-- SwapBits from fast_grad_utils.py (lines 104-109): swaps the bits at
positions a and b of num. -/
def SwapBits (num a b : ℕ) : ℕ :=
  let x := ((num >>> a) ^^^ (num >>> b)) &&& 1
  num ^^^ ((x <<< a) ||| (x <<< b))

/-- The entry map of BitPermutation1Q: the loop body perm[v] =
SwapBits(v, k, n-1) runs only when k != n-1, otherwise perm keeps
arange(2^n). -/
def bp1qFun (n k v : ℕ) : ℕ :=
  if k ≠ n - 1 then SwapBits v k (n - 1) else v

/-- BitPermutation1Q from fast_grad_utils.py (lines 112-133), as the list of
entries of the returned numpy array. -/
def BitPermutation1Q (n k : ℕ) : List ℕ :=
  (List.range (2 ^ n)).map (bp1qFun n k)

/-- InversePermutation from fast_grad_utils.py (lines 185-192): the
vectorised assignment inv[perm] = arange(perm.size) into a zero-initialised
array, as elementwise writes inv[perm[i]] := i for i = 0 .. size-1. -/
def InversePermutation (perm : List ℕ) : List ℕ :=
  (List.range perm.length).foldl
    (fun inv i => inv.set (perm.getD i 0) i)
    (List.replicate perm.length 0)

noncomputable section

open Matrix Kronecker

/-- Square complex matrix of side d, the embedding of a numpy complex
array of shape (d, d). -/
abbrev Mat (d : ℕ) := Matrix (Fin d) (Fin d) ℂ

/-- numpy kron in row-major layout: entry (i1*b + i2, j1*b + j2) equals
A[i1, j1] * B[i2, j2]; finProdFinEquiv sends (i1, i2) to i2 + b * i1. -/
def npKron {a b : ℕ} (A : Mat a) (B : Mat b) : Mat (a * b) :=
  Matrix.reindex finProdFinEquiv finProdFinEquiv (A ⊗ₖ B)

/-- Reindex a square matrix along an equality of dimensions. -/
def castMat {a b : ℕ} (h : a = b) (A : Mat a) : Mat b :=
  Matrix.reindex (finCongr h) (finCongr h) A

/-- op_rx: the X-rotation gate in standard half-angle form, as in
fast_grad_utils.Rx (lines 195-207); elementary_operations.py itself is not
in src, its gates are modelled from the spec ("standard half-angle
trigonometric forms", section 4.3) and agree with fast_grad_utils. -/
def op_rx (phi : ℝ) : Mat 2 :=
  !![(Real.cos (phi / 2) : ℂ), -Complex.I * Real.sin (phi / 2);
     -Complex.I * Real.sin (phi / 2), (Real.cos (phi / 2) : ℂ)]

/-- op_ry: the Y-rotation gate, as in fast_grad_utils.Ry (lines 210-222). -/
def op_ry (phi : ℝ) : Mat 2 :=
  !![(Real.cos (phi / 2) : ℂ), (-Real.sin (phi / 2) : ℝ);
     (Real.sin (phi / 2) : ℝ), (Real.cos (phi / 2) : ℂ)]

/-- op_rz: the Z-rotation gate, as in fast_grad_utils.Rz (lines 225-236):
diag(1/e, e) with e = exp(i phi/2). -/
def op_rz (phi : ℝ) : Mat 2 :=
  !![Complex.exp (-(phi / 2) * Complex.I), 0;
     0, Complex.exp ((phi / 2) * Complex.I)]

/-- The Pauli matrices defined locally in DefaultGradient.get_gradient
(gradient.py lines 68-70). -/
def pauli_x : Mat 2 := !![0, 1; 1, 0]

def pauli_y : Mat 2 := !![0, -Complex.I; Complex.I, 0]

def pauli_z : Mat 2 := !![1, 0; 0, -1]

/-- Modelled from the spec: elementary_operations.op_unitary is not in src.
Per the data model and glossary (Kronecker placement), it embeds a 2 x 2
gate at the 1-based qubit position q into the full 2^n x 2^n matrix as
kron(I(2^(q-1)), kron(u, I(2^(n-q)))), qubit 1 being the leftmost Kronecker
factor. Out-of-range q never occurs in the callers; the embedding returns
the identity there so the definition is total. -/
def op_unitary (u : Mat 2) (n q : ℕ) : Mat (2 ^ n) :=
  if h : 1 ≤ q ∧ q ≤ n then
    castMat (show 2 ^ (q - 1) * (2 * 2 ^ (n - q)) = 2 ^ n by
      rw [show (2 : ℕ) * 2 ^ (n - q) = 2 ^ (n - q + 1) by rw [pow_succ]; ring,
        ← pow_add]
      congr 1
      omega)
      (npKron (1 : Mat (2 ^ (q - 1))) (npKron u (1 : Mat (2 ^ (n - q)))))
  else 1

/-- The basis-index action of the full-space CNOT with control q1 and
target q2 (1-based, qubit 1 most significant, matching op_unitary):
flip the target bit when the control bit is set. -/
def cnotPermFn (n q1 q2 v : ℕ) : ℕ :=
  if v.testBit (n - q1) then v ^^^ (1 <<< (n - q2)) else v

/-- Modelled from the spec: elementary_operations.op_cnot is not in src.
The CNOT gate placed at qubits q1 (control) and q2 (target) in the full
2^n x 2^n space is the permutation matrix of cnotPermFn. -/
def op_cnot (n q1 q2 : ℕ) : Mat (2 ^ n) :=
  Matrix.of fun i j =>
    if (i : ℕ) = cnotPermFn n q1 q2 (j : ℕ) then 1 else 0

/-- One CNOT unit: multi_dot([full_q2, full_q1, cnot_q1q2]) built from
ry/rz on q1 and ry/rx on q2, shared verbatim by ParametricCircuit.to_numpy
(parametric_circuit.py lines 273-288, u1 = rz*ry, u2 = rx*ry) and
DefaultGradient.get_gradient (gradient.py lines 96-117). -/
def cnot_unit (n q1 q2 : ℕ) (t0 t1 t2 t3 : ℝ) : Mat (2 ^ n) :=
  op_unitary (op_rx t3 * op_ry t2) n q2 *
    op_unitary (op_rz t1 * op_ry t0) n q1 * op_cnot n q1 q2

/-- The per-qubit rotation multi_dot([rz0, ry1, rz2]) of the trailing
rotation layer with parameter base index base + 3*k (parametric_circuit.py
lines 294-299 and gradient.py lines 139-144 use the same formula). -/
def rotGate (thetas : ℕ → ℝ) (base k : ℕ) : Mat 2 :=
  op_rz (thetas (base + 3 * k)) * op_ry (thetas (base + 3 * k + 1)) *
    op_rz (thetas (base + 3 * k + 2))

/-- The rotation layer: V1 = kron(V1, gate_k) over k = 0 .. m-1, starting
from the scalar 1 (parametric_circuit.py lines 293-299). -/
def rotLayer (thetas : ℕ → ℝ) (base : ℕ) : (m : ℕ) → Mat (2 ^ m)
  | 0 => 1
  | m + 1 => castMat (pow_succ 2 m).symm
      (npKron (rotLayer thetas base m) (rotGate thetas base m))

/-- ParametricCircuit.to_numpy (parametric_circuit.py lines 261-301):
V = (C_{L-1} * ... * C_0) * V1 where C_l is the l-th CNOT unit and V1 the
trailing rotation layer. -/
def to_numpy (n : ℕ) (cnots : List (ℕ × ℕ)) (thetas : ℕ → ℝ) :
    Mat (2 ^ n) :=
  let L := cnots.length
  let Vc := (List.range L).foldl
    (fun V l =>
      cnot_unit n (cnots.getD l (0, 0)).1 (cnots.getD l (0, 0)).2
        (thetas (4 * l)) (thetas (4 * l + 1)) (thetas (4 * l + 2))
        (thetas (4 * l + 3)) * V)
    1
  Vc * rotLayer thetas (4 * L) n

/-- A matrix is unitary when its conjugate transpose is a left inverse. -/
def IsUnitary {d : ℕ} (A : Mat d) : Prop :=
  Aᴴ * A = 1

/-- Squared Frobenius norm: the sum of the squared magnitudes of all
entries. -/
def frobNormSq {d : ℕ} (A : Mat d) : ℝ :=
  ∑ i, ∑ j, Complex.normSq (A i j)

/-- Frobenius norm, la.norm(A, "fro"). -/
def frobNorm {d : ℕ} (A : Mat d) : ℝ :=
  Real.sqrt (frobNormSq A)

/-- The partial derivative of one CNOT unit with respect to its i-th angle
(i = 0..3), with the Pauli generator inserted next to the corresponding
rotation (gradient.py lines 175-197). -/
def der_cnot_unit (n q1 q2 : ℕ) (t0 t1 t2 t3 : ℝ) (i : ℕ) : Mat (2 ^ n) :=
  let ry1 := op_ry t0
  let rz1 := op_rz t1
  let ry2 := op_ry t2
  let rx2 := op_rx t3
  let s :=
    if i = 0 then (rz1 * pauli_y * ry1, rx2 * ry2)
    else if i = 1 then (pauli_z * rz1 * ry1, rx2 * ry2)
    else if i = 2 then (rz1 * ry1, rx2 * pauli_y * ry2)
    else (rz1 * ry1, pauli_x * rx2 * ry2)
  op_unitary s.2 n q2 * op_unitary s.1 n q1 * op_cnot n q1 q2

/-- The per-qubit factor of the rotation-layer derivative for parameter
index i: the Pauli generator is inserted when i - 3*q hits 0, 1 or 2 in
Python int arithmetic (gradient.py lines 234-250). -/
def der_rot_gate (thetas : ℕ → ℝ) (base i k : ℕ) : Mat 2 :=
  let rz0 := op_rz (thetas (base + 3 * k))
  let ry1 := op_ry (thetas (base + 3 * k + 1))
  let rz2 := op_rz (thetas (base + 3 * k + 2))
  if (i : ℤ) - 3 * k = 0 then pauli_z * rz0 * ry1 * rz2
  else if (i : ℤ) - 3 * k = 1 then rz0 * (pauli_y * ry1) * rz2
  else if (i : ℤ) - 3 * k = 2 then rz0 * ry1 * (pauli_z * rz2)
  else rz0 * ry1 * rz2

/-- The rotation-part derivative matrix for parameter index i: the same
Kronecker chain as the rotation layer but with der_rot_gate factors
(gradient.py lines 233-250). -/
def der_rotation_matrix (thetas : ℕ → ℝ) (base i : ℕ) :
    (m : ℕ) → Mat (2 ^ m)
  | 0 => 1
  | m + 1 => castMat (pow_succ 2 m).symm
      (npKron (der_rotation_matrix thetas base i m)
        (der_rot_gate thetas base i m))

/-- The gradient entry -Re tr(((-i/2) * M)^dagger * target) for a circuit
derivative matrix M (gradient.py lines 222-228 and 255-261). -/
def derEntry {n : ℕ} (target M : Mat (2 ^ n)) : ℝ :=
  -((((-Complex.I / 2) • M)ᴴ * target).trace.re)

/-- The right-product loop of DefaultGradient.get_gradient (gradient.py
lines 122-127): cnot_matrix starts at eye(d) and is repeatedly multiplied by
the slice cnot_right_collection[:, d*idx : d*(idx+1)] - a slice of the
ZERO-initialised collection itself (line 83), not of cnot_unit_collection -
then stored back into that slice; idx runs from num_cnots-1 down to 0. The
state is (cnot_matrix, collection). -/
def cnot_right_products (d : ℕ) (num_cnots : ℕ) : Mat d × (ℕ → Mat d) :=
  ((List.range num_cnots).reverse).foldl
    (fun st idx =>
      let m := st.1 * st.2 idx
      (m, Function.update st.2 idx m))
    (1, fun _ => 0)

/-- The left-product loop of DefaultGradient.get_gradient (gradient.py
lines 129-134), mirroring cnot_right_products with idx running upward and
the multiplication on the other side. -/
def cnot_left_products (d : ℕ) (num_cnots : ℕ) : Mat d × (ℕ → Mat d) :=
  (List.range num_cnots).foldl
    (fun st idx =>
      let m := st.2 idx * st.1
      (m, Function.update st.2 idx m))
    (1, fun _ => 0)

/-- DefaultGradient.get_gradient (gradient.py lines 62-264).

Two faithful peculiarities of the source are retained:
* the collections cnot_right_collection and cnot_left_collection are
  initialised to zeros (lines 83-86) and the running-product loops
  (lines 122-134) multiply by slices of those same collections - not by
  cnot_unit_collection, which is filled (lines 88-117) but never read -
  so every stored product, and the final cnot_matrix, is the zero matrix
  whenever num_cnots >= 1;
* in the derivative loop, the branch for cnot_index == 0 reads the slice
  [d : 2d] of cnot_right_collection, which for num_cnots == 1 is empty so
  np.dot raises a ValueError, and the middle branch (lines 211-217) uses
  the undefined names right_cnot_collection and left_cnot_collection,
  raising a NameError as soon as 0 < cnot_index < num_cnots - 1 exists,
  i.e. when num_cnots >= 3.

The theta vector is modelled as a total function read at the positional
indices the source uses; target_matrix has its shape fixed by the type
(the source performs no dimension validation of its own). -/
def get_gradient (n : ℕ) (cnots : List (ℕ × ℕ)) (thetas : ℕ → ℝ)
    (target_matrix : Mat (2 ^ n)) : Except PyErr (ℝ × (ℕ → ℝ)) :=
  let num_cnots := cnots.length
  -- lines 88-117: the unit collection (never read again afterwards)
  let cnot_unit_collection : ℕ → Mat (2 ^ n) := fun idx =>
    cnot_unit n (cnots.getD idx (0, 0)).1 (cnots.getD idx (0, 0)).2
      (thetas (4 * idx)) (thetas (4 * idx + 1)) (thetas (4 * idx + 2))
      (thetas (4 * idx + 3))
  -- lines 122-127: right-product loop over the zero-initialised collection
  let rightState := cnot_right_products (2 ^ n) num_cnots
  let cnot_right_collection := rightState.2
  -- lines 129-134: left-product loop, same pattern
  let leftState := cnot_left_products (2 ^ n) num_cnots
  let cnot_left_collection := leftState.2
  let cnot_matrix := leftState.1
  -- lines 136-148
  let rotation_matrix := rotLayer thetas (4 * num_cnots) n
  let circuit_matrix := cnot_matrix * rotation_matrix
  -- line 151
  let error := 0.5 * frobNorm (circuit_matrix - target_matrix) ^ 2
  -- lines 156-228: derivative loop over the cnot units
  let derUnit : ℕ → ℕ → Mat (2 ^ n) := fun idx i =>
    der_cnot_unit n (cnots.getD idx (0, 0)).1 (cnots.getD idx (0, 0)).2
      (thetas (4 * idx)) (thetas (4 * idx + 1)) (thetas (4 * idx + 2))
      (thetas (4 * idx + 3)) i
  let updateFour : (ℕ → ℝ) → ℕ → (ℕ → Mat (2 ^ n)) → (ℕ → ℝ) :=
    fun der idx dmat =>
      (List.range 4).foldl
        (fun d i => Function.update d (i + 4 * idx)
          (derEntry target_matrix (dmat i * rotation_matrix)))
        der
  let derCnotStep : (ℕ → ℝ) → ℕ → Except PyErr (ℕ → ℝ) := fun der idx =>
    if idx = 0 then
      if num_cnots < 2 then
        -- the slice cnot_right_collection[:, d : 2d] is empty: np.dot fails
        .error (.valueError "shapes are not aligned")
      else
        .ok (updateFour der idx fun i => cnot_right_collection 1 * derUnit idx i)
    else if num_cnots - 1 = idx then
      .ok (updateFour der idx fun i =>
        derUnit idx i * cnot_left_collection (num_cnots - 2))
    else
      -- line 213: right_cnot_collection / left_cnot_collection are undefined
      .error (.nameError "name right_cnot_collection is not defined")
  match (List.range num_cnots).foldlM derCnotStep (fun _ => (0 : ℝ)) with
  | .error e => .error e
  | .ok derCnot =>
    -- lines 232-261: rotation-part derivatives
    let derFinal := (List.range (3 * n)).foldl
      (fun d i => Function.update d (4 * num_cnots + i)
        (derEntry target_matrix
          (cnot_matrix * der_rotation_matrix thetas (4 * num_cnots) i n)))
      derCnot
    .ok (error, derFinal)

end

open Matrix Kronecker

theorem lower_limit_eq {n : ℕ} (hn : 2 ≤ n) :
    lower_limit n = .ok ⌈((4 : ℚ) ^ n - 3 * n - 1) / 4⌉ := by
  simp only [lower_limit, if_pos hn, round_intCast]

/-- Claim C3: for every n >= 2, lower_limit n equals the exact ceiling
ceil((4^n - 3n - 1)/4); in particular lower_limit 2 = 3, lower_limit 3 = 14
and lower_limit 4 = 61. -/
theorem lower_limit_closed_form :
    (∀ n : ℕ, 2 ≤ n →
      lower_limit n = .ok ⌈((4 : ℚ) ^ n - 3 * n - 1) / 4⌉) ∧
    lower_limit 2 = .ok 3 ∧ lower_limit 3 = .ok 14 ∧ lower_limit 4 = .ok 61 := by
  refine ⟨fun n hn => lower_limit_eq hn, ?_, ?_, ?_⟩
  · rw [lower_limit_eq (by norm_num)]
    norm_num [Int.ceil_eq_iff]
  · rw [lower_limit_eq (by norm_num)]
    norm_num [Int.ceil_eq_iff]
  · rw [lower_limit_eq (by norm_num)]
    norm_num [Int.ceil_eq_iff]

/-- Witness for lower_limit_closed_form at n = 5. -/
theorem lower_limit_closed_form_witness :
    lower_limit 5 = .ok ⌈((4 : ℚ) ^ 5 - 3 * 5 - 1) / 4⌉ :=
  lower_limit_closed_form.1 5 (by decide)

theorem emitLoop_empty_pass (depth : ℕ) :
    ∀ (fuel : ℕ) (acc : List (ℕ × ℕ)), acc.length < depth →
      emitLoop [] depth fuel acc = none := by
  intro fuel
  induction fuel with
  | zero =>
      intro acc h
      simp [emitLoop, Nat.not_le.mpr h]
  | succ f ih =>
      intro acc h
      simp only [emitLoop, Nat.not_le.mpr h, if_false, List.append_nil]
      exact ih acc h

theorem emitLoop_isSome (pass : List (ℕ × ℕ)) (depth : ℕ) :
    ∀ (fuel : ℕ) (acc : List (ℕ × ℕ)),
      depth ≤ acc.length + fuel * pass.length →
      ∃ t, emitLoop pass depth fuel acc = some t := by
  intro fuel
  induction fuel with
  | zero =>
      intro acc h
      rw [Nat.zero_mul, Nat.add_zero] at h
      exact ⟨acc.take depth, by simp [emitLoop, h]⟩
  | succ f ih =>
      intro acc h
      by_cases hle : depth ≤ acc.length
      · exact ⟨acc.take depth, by simp [emitLoop, hle]⟩
      · rw [Nat.succ_mul] at h
        have h' : depth ≤ (acc ++ pass).length + f * pass.length := by
          rw [List.length_append]
          omega
        obtain ⟨t, ht⟩ := ih (acc ++ pass) h'
        exact ⟨t, by simp [emitLoop, hle, ht]⟩

theorem emitLoop_some_spec (pass : List (ℕ × ℕ)) (depth : ℕ) :
    ∀ (fuel : ℕ) (acc t : List (ℕ × ℕ)),
      emitLoop pass depth fuel acc = some t →
      t.length = depth ∧ ∀ p ∈ t, p ∈ acc ∨ p ∈ pass := by
  intro fuel
  induction fuel with
  | zero =>
      intro acc t h
      by_cases hle : depth ≤ acc.length
      · simp only [emitLoop, hle, if_true, Option.some.injEq] at h
        subst h
        refine ⟨by simp [List.length_take, Nat.min_eq_left hle], ?_⟩
        intro p hp
        exact Or.inl (List.mem_of_mem_take hp)
      · simp [emitLoop, hle] at h
  | succ f ih =>
      intro acc t h
      by_cases hle : depth ≤ acc.length
      · simp only [emitLoop, hle, if_true, Option.some.injEq] at h
        subst h
        refine ⟨by simp [List.length_take, Nat.min_eq_left hle], ?_⟩
        intro p hp
        exact Or.inl (List.mem_of_mem_take hp)
      · simp only [emitLoop, hle, if_false] at h
        obtain ⟨hlen, hmem⟩ := ih (acc ++ pass) t h
        refine ⟨hlen, ?_⟩
        intro p hp
        rcases hmem p hp with hin | hin
        · rcases List.mem_append.mp hin with hin | hin
          · exact Or.inl hin
          · exact Or.inr hin
        · exact Or.inr hin

theorem seqPass_mem {n : ℕ} {links : ℕ → List ℕ} {p : ℕ × ℕ}
    (h : p ∈ seqPass n links) : 1 ≤ p.1 ∧ p.1 < p.2 ∧ p.2 ≤ n := by
  unfold seqPass at h
  rw [List.mem_flatMap] at h
  obtain ⟨i, hi, hp⟩ := h
  rw [List.mem_range'_1] at hi
  rw [List.mem_map] at hp
  obtain ⟨j, hj, rfl⟩ := hp
  rw [List.mem_filter, List.mem_range'_1] at hj
  obtain ⟨⟨hj1, hj2⟩, _⟩ := hj
  refine ⟨hi.1, by omega, ?_⟩
  omega

theorem seqPass_cons_mem {n : ℕ} {links : ℕ → List ℕ} (hn : 2 ≤ n)
    (h2 : 2 ∈ links 1) : (1, 2) ∈ seqPass n links := by
  unfold seqPass
  rw [List.mem_flatMap]
  refine ⟨1, ?_, ?_⟩
  · rw [List.mem_range'_1]
    omega
  · rw [List.mem_map]
    refine ⟨2, ?_, rfl⟩
    rw [List.mem_filter, List.mem_range'_1]
    exact ⟨⟨by omega, by omega⟩, by simpa using h2⟩

theorem spinPass_mem {n : ℕ} {p : ℕ × ℕ} (h : p ∈ spinPass n) :
    1 ≤ p.1 ∧ p.2 = p.1 + 1 ∧ p.2 ≤ n := by
  unfold spinPass at h
  rcases List.mem_append.mp h with h | h <;>
    · rw [List.mem_map] at h
      obtain ⟨i, hi, rfl⟩ := h
      rw [List.mem_range'] at hi
      obtain ⟨k, hk, rfl⟩ := hi
      refine ⟨by omega, rfl, by omega⟩

theorem spinPass_head_mem {n : ℕ} (hn : 2 ≤ n) : (1, 2) ∈ spinPass n := by
  unfold spinPass
  refine List.mem_append.mpr (Or.inl ?_)
  rw [List.mem_map]
  refine ⟨1, ?_, rfl⟩
  rw [List.mem_range']
  exact ⟨0, by omega, by omega⟩

theorem cyclicSpinPass_mem {n : ℕ} (hn : 2 ≤ n) {p : ℕ × ℕ}
    (h : p ∈ cyclicSpinPass n) :
    p.1 ≠ p.2 ∧ p.1 + 1 ≤ n ∧ p.2 + 1 ≤ n := by
  unfold cyclicSpinPass at h
  rcases List.mem_append.mp h with h | h <;>
    rw [List.mem_filterMap] at h
  · obtain ⟨i, hi, hp⟩ := h
    rw [List.mem_range'] at hi
    obtain ⟨k, hk, rfl⟩ := hi
    by_cases hle : 0 + 2 * k + 1 ≤ n - 1
    · rw [if_pos hle, Option.some.injEq] at hp
      subst hp
      refine ⟨by omega, by omega, by omega⟩
    · rw [if_neg hle] at hp
      exact absurd hp (by simp)
  · obtain ⟨i, hi, hp⟩ := h
    rw [List.mem_range'] at hi
    obtain ⟨k, hk, rfl⟩ := hi
    by_cases hle : 1 + 2 * k + 1 ≤ n - 1
    · rw [if_pos hle, Option.some.injEq] at hp
      subst hp
      refine ⟨by omega, by omega, by omega⟩
    · rw [if_neg hle] at hp
      by_cases hlast : 1 + 2 * k = n - 1
      · rw [if_pos hlast, Option.some.injEq] at hp
        subst hp
        refine ⟨by omega, by omega, by omega⟩
      · rw [if_neg hlast] at hp
        exact absurd hp (by simp)

theorem cyclicSpinPass_head_mem {n : ℕ} (hn : 2 ≤ n) :
    (0, 1) ∈ cyclicSpinPass n := by
  unfold cyclicSpinPass
  refine List.mem_append.mpr (Or.inl ?_)
  rw [List.mem_filterMap]
  refine ⟨0, ?_, ?_⟩
  · rw [List.mem_range']
    exact ⟨0, by omega, by omega⟩
  · rw [if_pos (by omega)]

theorem decLastFst_length (m : List (ℕ × ℕ)) :
    (decLastFst m).length = m.length := by
  induction m with
  | nil => rfl
  | cons p rest ih =>
      cases rest with
      | nil => rfl
      | cons q rest' => simpa [decLastFst] using ih

theorem decLastFst_mem {m : List (ℕ × ℕ)} {p : ℕ × ℕ}
    (h : p ∈ decLastFst m) : ∃ q ∈ m, p = q ∨ p = (q.1 - 1, q.2) := by
  induction m with
  | nil => simp [decLastFst] at h
  | cons r rest ih =>
      cases rest with
      | nil =>
          simp only [decLastFst, List.mem_singleton] at h
          exact ⟨r, List.mem_cons_self r [], Or.inr h⟩
      | cons q rest' =>
          simp only [decLastFst, List.mem_cons] at h
          rcases h with h | h
          · exact ⟨r, List.mem_cons_self _ _, Or.inl h⟩
          · obtain ⟨s, hs, hps⟩ := ih h
            exact ⟨s, List.mem_cons_of_mem _ hs, hps⟩

theorem cartInv_iterate {n : ℕ} (hn : 4 ≤ n) :
    ∀ t, t ≤ n - 2 →
      cartInv n t (cartStep^[t]
        ([(1, 2), (1, 2), (1, 2)],
         [(n - 1, n), (n - 2, n), (n - 1, n), (n - 2, n)])) := by
  intro t
  induction t with
  | zero =>
      intro _
      simp only [Function.iterate_zero_apply]
      refine ⟨?_, ?_, by norm_num, by norm_num⟩
      · intro p hp
        simp only [List.mem_cons, List.not_mem_nil, or_false] at hp
        rcases hp with rfl | rfl | rfl <;>
          exact ⟨by omega, by omega, by omega, by omega, by omega⟩
      · intro p hp
        simp only [List.mem_cons, List.not_mem_nil, or_false] at hp
        rcases hp with rfl | rfl | rfl | rfl <;>
          exact ⟨rfl, by omega, by omega⟩
  | succ t ih =>
      intro ht
      obtain ⟨hc, hm, hlc, hlm⟩ := ih (by omega)
      rw [Function.iterate_succ_apply']
      set cm := cartStep^[t]
        ([(1, 2), (1, 2), (1, 2)],
         [(n - 1, n), (n - 2, n), (n - 1, n), (n - 2, n)]) with hcm
      have hmv : ∀ p ∈ cm.2, validColumn n p := by
        intro p hp
        obtain ⟨h2, hlo, hhi⟩ := hm p hp
        exact ⟨by omega, by omega, by omega, by omega, by omega⟩
      have hstep1 : (cartStep cm).1 =
          (cm.1 ++ cm.2) ++ (cm.1 ++ cm.2) ++ (cm.1 ++ cm.2) ++ cm.1 := rfl
      have hstep2 : (cartStep cm).2 =
          decLastFst cm.2 ++ decLastFst cm.2 := rfl
      refine ⟨?_, ?_, ?_, ?_⟩
      · intro p hp
        rw [hstep1] at hp
        simp only [List.mem_append] at hp
        have hp' : p ∈ cm.1 ∨ p ∈ cm.2 := by tauto
        rcases hp' with h | h
        · exact hc p h
        · exact hmv p h
      · intro p hp
        rw [hstep2] at hp
        simp only [List.mem_append, or_self] at hp
        obtain ⟨q, hq, hpq⟩ := decLastFst_mem hp
        obtain ⟨h2, hlo, hhi⟩ := hm q hq
        rcases hpq with rfl | rfl
        · exact ⟨h2, by omega, hhi⟩
        · exact ⟨h2, by omega, by omega⟩
      · rw [hstep1]
        simp only [List.length_append]
        have h4 : (4 : ℕ) ^ (t + 1) = 4 * 4 ^ t := by ring
        have h2 : (2 : ℕ) ^ (t + 1) = 2 * 2 ^ t := by ring
        omega
      · rw [hstep2]
        simp only [List.length_append, decLastFst_length]
        have h2 : (2 : ℕ) ^ (t + 1) = 2 * 2 ^ t := by ring
        omega

theorem three_mul_add_one_lt_four_pow {n : ℕ} (hn : 2 ≤ n) :
    3 * n + 1 < 4 ^ n := by
  induction n with
  | zero => omega
  | succ m ih =>
      rcases Nat.lt_or_ge m 2 with hm | hm
      · have hm1 : m = 1 := by omega
        subst hm1
        norm_num
      · have h4 : 4 ^ m ≥ 16 := by
          calc (16 : ℕ) = 4 ^ 2 := by norm_num
          _ ≤ 4 ^ m := Nat.pow_le_pow_right (by norm_num) hm
        have := ih hm
        have : 4 ^ (m + 1) = 4 * 4 ^ m := by ring
        omega

theorem lowerLimitCeil_pos {n : ℕ} (hn : 2 ≤ n) :
    0 < ⌈((4 : ℚ) ^ n - 3 * n - 1) / 4⌉ := by
  rw [Int.ceil_pos]
  have h := three_mul_add_one_lt_four_pow hn
  have h' : (3 * n + 1 : ℚ) < 4 ^ n := by exact_mod_cast h
  have : (0 : ℚ) < 4 ^ n - 3 * n - 1 := by linarith
  positivity

/-- The single shape shared by the three emission-loop layouts: with a
nonempty pass and fuel equal to depth, the loop returns some list of
exactly depth entries, all drawn from the pass. -/
theorem emitLoop_full (pass : List (ℕ × ℕ)) (depth : ℕ)
    (hne : pass ≠ []) :
    ∃ t, emitLoop pass depth depth [] = some t ∧ t.length = depth ∧
      ∀ p ∈ t, p ∈ pass := by
  have hlen : 1 ≤ pass.length := List.length_pos.mpr hne
  obtain ⟨t, ht⟩ := emitLoop_isSome pass depth depth []
    (by simpa using Nat.le_mul_of_pos_right depth hlen)
  obtain ⟨hl, hm⟩ := emitLoop_some_spec pass depth depth [] t ht
  refine ⟨t, ht, hl, ?_⟩
  intro p hp
  rcases hm p hp with h | h
  · simp at h
  · exact h

theorem two_mem_full_links {n : ℕ} (hn : 2 ≤ n) :
    2 ∈ (List.range n).map (· + 1) := by
  rw [List.mem_map]
  exact ⟨1, List.mem_range.mpr (by omega), rfl⟩

/-- Claim C4, amended: for every n >= 2, every supported layout defined at n
(cart needs n >= 3), and every connectivity valid for that layout,
make_cnot_network with depth 0 returns a topology of length at least
lower_limit n whose columns each hold two distinct indices in [1, n]. -/
theorem make_cnot_network_default_depth_valid
    (n : ℕ) (hn : 2 ≤ n) (layout conn : String)
    (hl : layout ∈ get_network_layouts)
    (hc : conn ∈ get_connectivity_types)
    (hcs : layout = "cyclic_spin" → conn = "full")
    (hcl : layout = "cyclic_line" → conn = "line")
    (hcart : layout = "cart" → 3 ≤ n) :
    ∃ t, make_cnot_network n layout conn 0
        (⌈((4 : ℚ) ^ n - 3 * n - 1) / 4⌉.toNat) = some (.ok t) ∧
      ⌈((4 : ℚ) ^ n - 3 * n - 1) / 4⌉ ≤ (t.length : ℤ) ∧
      ∀ p ∈ t, validColumn n p := by
  have hpos := lowerLimitCeil_pos hn
  set c : ℤ := ⌈((4 : ℚ) ^ n - 3 * n - 1) / 4⌉ with hc_def
  set d : ℕ := c.toNat with hd_def
  have hdc : (d : ℤ) = c := Int.toNat_of_nonneg hpos.le
  have hd1 : 1 ≤ d := by omega
  have hstart : make_cnot_network n layout conn 0 d =
      (if layout = "sequ" then
        match get_connectivity n conn with
        | .error e => some (.error e)
        | .ok links => _sequential_network n links d d
      else if layout = "spin" then
        (_spin_network n d d).map .ok
      else if layout = "cart" then
        some (_cartan_network n)
      else if layout = "cyclic_spin" then
        if conn = "full" then
          ((emitLoop (cyclicSpinPass n) d d []).map fun t =>
            .ok (t.map fun p => (p.1 + 1, p.2 + 1)))
        else
          some (.error (.assertionError
            ("'" ++ layout ++ "' layout expects 'full' connectivity")))
      else if layout = "cyclic_line" then
        if conn = "line" then
          some (.ok ((List.range d).map fun i =>
            (i % n + 1, (i + 1) % n + 1)))
        else
          some (.error (.assertionError
            ("'" ++ layout ++ "' layout expects 'line' connectivity")))
      else
        some (.error (.valueError
          ("unknown type of CNOT-network layout, expects one of " ++
           toString get_network_layouts ++ ", got " ++ layout)))) := by
    unfold make_cnot_network
    rw [if_pos (le_refl (0 : ℤ)), lower_limit_eq hn]
    rfl
  simp only [get_network_layouts, List.mem_cons, List.not_mem_nil,
    or_false] at hl
  simp only [get_connectivity_types, List.mem_cons, List.not_mem_nil,
    or_false] at hc
  rcases hl with rfl | rfl | rfl | rfl | rfl
  · -- layout = "sequ"
    have hlinks : ∃ links, get_connectivity n conn = .ok links ∧
        2 ∈ links 1 := by
      rcases hc with rfl | rfl | rfl
      · refine ⟨fun _ => (List.range n).map (· + 1), ?_,
          two_mem_full_links hn⟩
        unfold get_connectivity
        rw [if_neg (show ¬ n = 1 by omega), if_pos rfl]
      · refine ⟨fun q => if q = 1 then [1, 2]
          else if q = n then [n - 1, n] else [q - 1, q, q + 1], ?_, by norm_num⟩
        unfold get_connectivity
        rw [if_neg (show ¬ n = 1 by omega), if_neg (by decide), if_pos rfl]
      · refine ⟨fun q => if q = 1 then (List.range n).map (· + 1)
          else [1, q], ?_, by simpa using two_mem_full_links hn⟩
        unfold get_connectivity
        rw [if_neg (show ¬ n = 1 by omega), if_neg (by decide),
          if_neg (by decide), if_pos rfl]
    obtain ⟨links, hgc, h2⟩ := hlinks
    rw [hstart, if_pos rfl, hgc]
    have hne : seqPass n links ≠ [] :=
      List.ne_nil_of_mem (seqPass_cons_mem hn h2)
    obtain ⟨t, ht, hlen, hmem⟩ := emitLoop_full (seqPass n links) d hne
    refine ⟨t, ?_, ?_, ?_⟩
    · simp [_sequential_network, (show ¬ d = 0 by omega), ht]
    · rw [hlen]; omega
    · intro p hp
      obtain ⟨h1, hlt, hle⟩ := seqPass_mem (hmem p hp)
      exact ⟨by omega, by omega, by omega, by omega, by omega⟩
  · -- layout = "spin"
    rw [hstart, if_neg (show ¬ "spin" = "sequ" by decide), if_pos rfl]
    have hne : spinPass n ≠ [] := List.ne_nil_of_mem (spinPass_head_mem hn)
    obtain ⟨t, ht, hlen, hmem⟩ := emitLoop_full (spinPass n) d hne
    refine ⟨t, ?_, ?_, ?_⟩
    · simp [_spin_network, ht]
    · rw [hlen]; omega
    · intro p hp
      obtain ⟨h1, heq, hle⟩ := spinPass_mem (hmem p hp)
      exact ⟨by omega, by omega, by omega, by omega, by omega⟩
  · -- layout = "cart"
    have hn3 : 3 ≤ n := hcart rfl
    rw [hstart, if_neg (show ¬ "cart" = "sequ" by decide),
      if_neg (show ¬ "cart" = "spin" by decide), if_pos rfl]
    rcases Nat.lt_or_ge n 4 with h4 | h4
    · have hn3' : n = 3 := by omega
      subst hn3'
      refine ⟨cartanBase3, ?_, ?_, ?_⟩
      · rfl
      · have : c = 14 := by
          rw [hc_def]; norm_num [Int.ceil_eq_iff]
        rw [this]
        decide
      · decide
    · obtain ⟨hcv, _, hlc, _⟩ := cartInv_iterate h4 (n - 2) (le_refl _)
      set cm := cartStep^[n - 2]
        ([(1, 2), (1, 2), (1, 2)],
         [(n - 1, n), (n - 2, n), (n - 1, n), (n - 2, n)]) with hcm
      refine ⟨cm.1, ?_, ?_, hcv⟩
      · simp [_cartan_network, (show 3 < n by omega)]
      · -- ceil((4^n-3n-1)/4) <= len, via the closed form of the length
        have ha4 : 4 ≤ 2 ^ (n - 2) := by
          calc (4 : ℕ) = 2 ^ 2 := by norm_num
          _ ≤ 2 ^ (n - 2) := Nat.pow_le_pow_right (by norm_num) (by omega)
        have hb : (4 : ℕ) ^ (n - 2) = 2 ^ (n - 2) * 2 ^ (n - 2) := by
          rw [show (4 : ℕ) = 2 * 2 from rfl, Nat.mul_pow]
        have hpow : (4 : ℕ) ^ n = 16 * 4 ^ (n - 2) := by
          calc (4 : ℕ) ^ n = 4 ^ (n - 2 + 2) := by rw [Nat.sub_add_cancel (by omega)]
          _ = 4 ^ (n - 2) * 4 ^ 2 := by rw [pow_add]
          _ = 16 * 4 ^ (n - 2) := by ring
        have hkey : 24 * 2 ^ (n - 2) ≤ 20 * 4 ^ (n - 2) := by
          rw [hb]
          calc 24 * 2 ^ (n - 2) ≤ (20 * 2 ^ (n - 2)) * 2 ^ (n - 2) :=
            Nat.mul_le_mul_right _ (by omega)
          _ = 20 * (2 ^ (n - 2) * 2 ^ (n - 2)) := by ring
        have hnineq : 4 ^ n ≤ 4 * cm.1.length + 3 * n + 1 := by
          rw [hpow]
          omega
        rw [hc_def, Int.ceil_le]
        have : ((4 : ℕ) ^ n : ℚ) ≤ ((4 * cm.1.length + 3 * n + 1 : ℕ) : ℚ) := by
          exact_mod_cast hnineq
        push_cast at this ⊢
        linarith
  · -- layout = "cyclic_spin"
    have hconn : conn = "full" := hcs rfl
    subst hconn
    rw [hstart, if_neg (show ¬ "cyclic_spin" = "sequ" by decide),
      if_neg (show ¬ "cyclic_spin" = "spin" by decide),
      if_neg (show ¬ "cyclic_spin" = "cart" by decide), if_pos rfl, if_pos rfl]
    have hne : cyclicSpinPass n ≠ [] :=
      List.ne_nil_of_mem (cyclicSpinPass_head_mem hn)
    obtain ⟨t, ht, hlen, hmem⟩ := emitLoop_full (cyclicSpinPass n) d hne
    refine ⟨t.map fun p => (p.1 + 1, p.2 + 1), ?_, ?_, ?_⟩
    · rw [ht]; rfl
    · rw [List.length_map, hlen]; omega
    · intro p hp
      rw [List.mem_map] at hp
      obtain ⟨q, hq, rfl⟩ := hp
      obtain ⟨hne', h1, h2⟩ := cyclicSpinPass_mem hn (hmem q hq)
      exact ⟨by omega, by omega, by omega, by omega, by omega⟩
  · -- layout = "cyclic_line"
    have hconn : conn = "line" := hcl rfl
    subst hconn
    rw [hstart, if_neg (show ¬ "cyclic_line" = "sequ" by decide),
      if_neg (show ¬ "cyclic_line" = "spin" by decide),
      if_neg (show ¬ "cyclic_line" = "cart" by decide),
      if_neg (show ¬ "cyclic_line" = "cyclic_spin" by decide),
      if_pos rfl, if_pos rfl]
    refine ⟨_, rfl, ?_, ?_⟩
    · rw [List.length_map, List.length_range]; omega
    · intro p hp
      rw [List.mem_map] at hp
      obtain ⟨i, _, rfl⟩ := hp
      have hmod1 : i % n < n := Nat.mod_lt _ (by omega)
      have hmod2 : (i + 1) % n < n := Nat.mod_lt _ (by omega)
      have hdist : i % n ≠ (i + 1) % n := by
        intro heq
        have hone : (1 : ℕ) % n = 1 := Nat.mod_eq_of_lt (by omega)
        have hsucc : (i + 1) % n = (i % n + 1) % n := by
          rw [Nat.add_mod, hone]
        rw [hsucc] at heq
        rcases Nat.lt_or_ge (i % n + 1) n with hlt | hge
        · rw [Nat.mod_eq_of_lt hlt] at heq
          omega
        · have heqn : i % n + 1 = n := by omega
          rw [heqn, Nat.mod_self] at heq
          omega
      exact ⟨by omega, by omega, by omega, by omega, by omega⟩

/-- Counterexample to claim C4 as stated: cart is a supported layout and
full a valid connectivity, yet at n = 2 make_cnot_network raises a
ValueError instead of returning a topology. -/
theorem make_cnot_network_cart_two_qubits_raises :
    make_cnot_network 2 "cart" "full" 0 0 =
      some (.error (.valueError
        "The number of qubits must be >= 3, got 2.")) := by
  decide

/-- Witness for make_cnot_network_default_depth_valid at
n = 2, layout spin, connectivity full. -/
theorem make_cnot_network_default_depth_valid_witness :
    ∃ t, make_cnot_network 2 "spin" "full" 0
        (⌈((4 : ℚ) ^ (2 : ℕ) - 3 * ((2 : ℕ) : ℚ) - 1) / 4⌉.toNat) =
        some (.ok t) ∧
      ⌈((4 : ℚ) ^ (2 : ℕ) - 3 * ((2 : ℕ) : ℚ) - 1) / 4⌉ ≤ (t.length : ℤ) ∧
      ∀ p ∈ t, validColumn 2 p :=
  make_cnot_network_default_depth_valid 2 (by decide) "spin" "full"
    (by decide) (by decide) (by decide) (by decide) (by decide)

theorem make_cnot_network_pos_depth (n : ℕ) (layout conn : String)
    {depth : ℤ} (hdep : 1 ≤ depth) (fuel : ℕ) :
    make_cnot_network n layout conn depth fuel =
      makeDispatch n layout conn depth.toNat fuel := by
  unfold make_cnot_network
  rw [if_neg (by omega : ¬ depth ≤ 0)]
  rfl

theorem make_cnot_network_auto_depth {n : ℕ} (hn : 2 ≤ n)
    (layout conn : String) {depth : ℤ} (hdep : depth ≤ 0) (fuel : ℕ) :
    make_cnot_network n layout conn depth fuel =
      makeDispatch n layout conn
        (⌈((4 : ℚ) ^ n - 3 * n - 1) / 4⌉.toNat) fuel := by
  unfold make_cnot_network
  rw [if_pos hdep, lower_limit_eq hn]
  rfl

theorem makeDispatch_unknown_layout (n : ℕ) {layout : String}
    (conn : String) (d fuel : ℕ) (hl : layout ∉ get_network_layouts) :
    makeDispatch n layout conn d fuel =
      some (.error (.valueError
        ("unknown type of CNOT-network layout, expects one of " ++
         toString get_network_layouts ++ ", got " ++ layout))) := by
  simp only [get_network_layouts, List.mem_cons, List.not_mem_nil, or_false,
    not_or] at hl
  obtain ⟨h1, h2, h3, h4, h5⟩ := hl
  unfold makeDispatch
  rw [if_neg h1, if_neg h2, if_neg h3, if_neg h4, if_neg h5]

/-- Claim C6, amended: an unknown layout name raises the ValueError naming
the offending value and the supported set provided the default-depth path
does not first hit the num_qubits >= 2 assertion of lower_limit (so when
depth >= 1, or when depth <= 0 and n >= 2); an unknown connectivity name
raises its ValueError only through the sequ layout with n >= 2; the spin
layout ignores the connectivity name entirely. -/
theorem unknown_layout_and_connectivity_errors :
    (∀ (n : ℕ) (layout conn : String) (depth : ℤ) (fuel : ℕ),
      layout ∉ get_network_layouts → 1 ≤ depth →
      make_cnot_network n layout conn depth fuel =
        some (.error (.valueError
          ("unknown type of CNOT-network layout, expects one of " ++
           toString get_network_layouts ++ ", got " ++ layout)))) ∧
    (∀ (n : ℕ) (layout conn : String) (depth : ℤ) (fuel : ℕ),
      layout ∉ get_network_layouts → depth ≤ 0 → 2 ≤ n →
      make_cnot_network n layout conn depth fuel =
        some (.error (.valueError
          ("unknown type of CNOT-network layout, expects one of " ++
           toString get_network_layouts ++ ", got " ++ layout)))) ∧
    (∀ (n : ℕ) (conn : String) (depth : ℤ) (fuel : ℕ),
      conn ∉ get_connectivity_types → 1 ≤ depth → 2 ≤ n →
      make_cnot_network n "sequ" conn depth fuel =
        some (.error (.valueError
          ("unknown connectivity type, expects one of " ++
           toString get_connectivity_types ++ ", got " ++ conn)))) ∧
    (∀ (conn : String) (fuel : ℕ),
      make_cnot_network 2 "spin" conn 1 (fuel + 1) =
        some (.ok [(1, 2)])) := by
  refine ⟨?_, ?_, ?_, ?_⟩
  · intro n layout conn depth fuel hl hdep
    rw [make_cnot_network_pos_depth n layout conn hdep fuel,
      makeDispatch_unknown_layout n conn _ fuel hl]
  · intro n layout conn depth fuel hl hdep hn
    rw [make_cnot_network_auto_depth hn layout conn hdep fuel,
      makeDispatch_unknown_layout n conn _ fuel hl]
  · intro n conn depth fuel hc hdep hn
    rw [make_cnot_network_pos_depth n "sequ" conn hdep fuel]
    simp only [get_connectivity_types, List.mem_cons, List.not_mem_nil,
      or_false, not_or] at hc
    obtain ⟨h1, h2, h3⟩ := hc
    unfold makeDispatch
    rw [if_pos rfl]
    unfold get_connectivity
    rw [if_neg (show ¬ n = 1 by omega), if_neg h1, if_neg h2, if_neg h3]
  · intro conn fuel
    rw [make_cnot_network_pos_depth 2 "spin" conn (by norm_num) (fuel + 1)]
    unfold makeDispatch
    rw [if_neg (show ¬ "spin" = "sequ" by decide), if_pos rfl]
    have h1 : spinPass 2 = [(1, 2)] := rfl
    unfold _spin_network
    rw [h1, show (1 : ℤ).toNat = 1 from rfl]
    have : emitLoop [(1, 2)] 1 (fuel + 1) [] =
        emitLoop [(1, 2)] 1 fuel [(1, 2)] := by
      simp [emitLoop]
    rw [this]
    cases fuel with
    | zero => rfl
    | succ f => simp [emitLoop]

/-- Counterexample to claim C6 as stated: with the spin layout and the
unknown connectivity name bogus, make_cnot_network returns a topology
normally instead of raising a configuration error. -/
theorem make_cnot_network_spin_ignores_connectivity :
    make_cnot_network 2 "spin" "bogus" 1 1 = some (.ok [(1, 2)]) := by
  decide

/-- Witness for unknown_layout_and_connectivity_errors at concrete inputs. -/
theorem unknown_layout_and_connectivity_errors_witness :
    make_cnot_network 3 "foo" "full" 1 0 =
      some (.error (.valueError
        ("unknown type of CNOT-network layout, expects one of " ++
         toString get_network_layouts ++ ", got " ++ "foo"))) :=
  unknown_layout_and_connectivity_errors.1 3 "foo" "full" 1 0
    (by decide) (by norm_num)

/-- Counterexample to claim C9 as stated: at n = 1 the sequ sweep allows no
pair at all (the loop body over range(1, 1) is empty), so the while True
loop of _sequential_network never terminates. -/
theorem make_cnot_network_one_qubit_sequ_diverges :
    make_cnot_network_diverges 1 "sequ" "full" 1 := by
  intro fuel
  rw [make_cnot_network_pos_depth 1 "sequ" "full" (by norm_num) fuel]
  show _sequential_network 1 (fun _ => [1]) (1 : ℤ).toNat fuel = none
  unfold _sequential_network
  rw [if_neg (by decide : ¬ (1 : ℤ).toNat = 0)]
  have hpass : seqPass 1 (fun _ => [1]) = [] := rfl
  rw [hpass, emitLoop_empty_pass _ fuel [] (by decide)]
  rfl

/-- Claim C9, amended: for every n >= 2, every layout and connectivity name
(supported or not) and every depth, make_cnot_network terminates, returning
either a topology or an error; for n = 1, the sequ, spin and cyclic_spin
layouts with positive depth loop forever. -/
theorem make_cnot_network_terminates (n : ℕ) (hn : 2 ≤ n)
    (layout conn : String) (depth : ℤ) :
    ∃ fuel r, make_cnot_network n layout conn depth fuel = some r := by
  -- resolve the effective depth
  obtain ⟨d, hd⟩ : ∃ d : ℕ, ∀ fuel,
      make_cnot_network n layout conn depth fuel =
        makeDispatch n layout conn d fuel := by
    rcases le_or_lt depth 0 with hdep | hdep
    · exact ⟨_, fun fuel => make_cnot_network_auto_depth hn layout conn hdep fuel⟩
    · exact ⟨_, fun fuel => make_cnot_network_pos_depth n layout conn hdep fuel⟩
  by_cases hsequ : layout = "sequ"
  · subst hsequ
    by_cases hn1 : d = 0
    · subst hn1
      rcases hgc : get_connectivity n conn with e | links
      · refine ⟨0, .error e, ?_⟩
        rw [hd 0]
        unfold makeDispatch
        rw [if_pos rfl, hgc]
      · refine ⟨0, .error (.assertionError "depth > 0"), ?_⟩
        rw [hd 0]
        unfold makeDispatch
        rw [if_pos rfl, hgc]
        rfl
    · by_cases hc : conn ∈ get_connectivity_types
      · have hlinks : ∃ links, get_connectivity n conn = .ok links ∧
            2 ∈ links 1 := by
          simp only [get_connectivity_types, List.mem_cons,
            List.not_mem_nil, or_false] at hc
          rcases hc with rfl | rfl | rfl
          · refine ⟨fun _ => (List.range n).map (· + 1), ?_,
              two_mem_full_links hn⟩
            unfold get_connectivity
            rw [if_neg (show ¬ n = 1 by omega), if_pos rfl]
          · refine ⟨fun q => if q = 1 then [1, 2]
              else if q = n then [n - 1, n] else [q - 1, q, q + 1], ?_,
              by norm_num⟩
            unfold get_connectivity
            rw [if_neg (show ¬ n = 1 by omega), if_neg (by decide),
              if_pos rfl]
          · refine ⟨fun q => if q = 1 then (List.range n).map (· + 1)
              else [1, q], ?_, by simpa using two_mem_full_links hn⟩
            unfold get_connectivity
            rw [if_neg (show ¬ n = 1 by omega), if_neg (by decide),
              if_neg (by decide), if_pos rfl]
        obtain ⟨links, hgc, h2⟩ := hlinks
        have hne : seqPass n links ≠ [] :=
          List.ne_nil_of_mem (seqPass_cons_mem hn h2)
        obtain ⟨t, ht, _, _⟩ := emitLoop_full (seqPass n links) d hne
        refine ⟨d, .ok t, ?_⟩
        rw [hd d]
        unfold makeDispatch
        rw [if_pos rfl, hgc]
        show _sequential_network n links d d = some (.ok t)
        unfold _sequential_network
        rw [if_neg hn1, ht]
        rfl
      · simp only [get_connectivity_types, List.mem_cons,
          List.not_mem_nil, or_false, not_or] at hc
        obtain ⟨h1, h2, h3⟩ := hc
        refine ⟨0, .error (.valueError
          ("unknown connectivity type, expects one of " ++
           toString get_connectivity_types ++ ", got " ++ conn)), ?_⟩
        rw [hd 0]
        unfold makeDispatch
        rw [if_pos rfl]
        unfold get_connectivity
        rw [if_neg (show ¬ n = 1 by omega), if_neg h1, if_neg h2, if_neg h3]
  by_cases hspin : layout = "spin"
  · subst hspin
    have hne : spinPass n ≠ [] := List.ne_nil_of_mem (spinPass_head_mem hn)
    obtain ⟨t, ht, _, _⟩ := emitLoop_full (spinPass n) d hne
    refine ⟨d, .ok t, ?_⟩
    rw [hd d]
    unfold makeDispatch
    rw [if_neg hsequ, if_pos rfl]
    unfold _spin_network
    rw [ht]
    rfl
  by_cases hcart : layout = "cart"
  · subst hcart
    refine ⟨0, _cartan_network n, ?_⟩
    rw [hd 0]
    unfold makeDispatch
    rw [if_neg hsequ, if_neg hspin, if_pos rfl]
  by_cases hcspin : layout = "cyclic_spin"
  · subst hcspin
    by_cases hfull : conn = "full"
    · subst hfull
      have hne : cyclicSpinPass n ≠ [] :=
        List.ne_nil_of_mem (cyclicSpinPass_head_mem hn)
      obtain ⟨t, ht, _, _⟩ := emitLoop_full (cyclicSpinPass n) d hne
      refine ⟨d, .ok (t.map fun p => (p.1 + 1, p.2 + 1)), ?_⟩
      rw [hd d]
      unfold makeDispatch
      rw [if_neg hsequ, if_neg hspin, if_neg hcart, if_pos rfl, if_pos rfl,
        ht]
      rfl
    · refine ⟨0, .error (.assertionError
        ("'" ++ "cyclic_spin" ++ "' layout expects 'full' connectivity")), ?_⟩
      rw [hd 0]
      unfold makeDispatch
      rw [if_neg hsequ, if_neg hspin, if_neg hcart, if_pos rfl,
        if_neg hfull]
  by_cases hcline : layout = "cyclic_line"
  · subst hcline
    by_cases hline : conn = "line"
    · subst hline
      refine ⟨0, .ok ((List.range d).map fun i =>
        (i % n + 1, (i + 1) % n + 1)), ?_⟩
      rw [hd 0]
      unfold makeDispatch
      rw [if_neg hsequ, if_neg hspin, if_neg hcart, if_neg hcspin,
        if_pos rfl, if_pos rfl]
    · refine ⟨0, .error (.assertionError
        ("'" ++ "cyclic_line" ++ "' layout expects 'line' connectivity")), ?_⟩
      rw [hd 0]
      unfold makeDispatch
      rw [if_neg hsequ, if_neg hspin, if_neg hcart, if_neg hcspin,
        if_pos rfl, if_neg hline]
  · refine ⟨0, .error (.valueError
      ("unknown type of CNOT-network layout, expects one of " ++
       toString get_network_layouts ++ ", got " ++ layout)), ?_⟩
    rw [hd 0]
    unfold makeDispatch
    rw [if_neg hsequ, if_neg hspin, if_neg hcart, if_neg hcspin,
      if_neg hcline]

/-- Witness for make_cnot_network_terminates at n = 2, sequ, full, depth 0. -/
theorem make_cnot_network_terminates_witness :
    ∃ fuel r, make_cnot_network 2 "sequ" "full" 0 fuel = some r :=
  make_cnot_network_terminates 2 (by decide) "sequ" "full" 0

/-- Counterexample to claim C7 as stated: without caller-supplied values the
constructor defaults (100, 0.1) are truthy, so the size-keyed table never
applies and every qubit count keeps 100 iterations; and even for explicitly
falsy caller values the table gives the smaller qubit count FEWER
iterations (200 at n = 2 against 500 at n = 5), not more. -/
theorem compute_optional_parameters_not_more_iterations :
    (_compute_optional_parameters AQC.defaults 2).maxiter =
      (_compute_optional_parameters AQC.defaults 5).maxiter ∧
    (_compute_optional_parameters
        { AQC.defaults with maxiter := 0, eta := 0 } 2).maxiter <
      (_compute_optional_parameters
        { AQC.defaults with maxiter := 0, eta := 0 } 5).maxiter := by
  decide

/-- Claim C7, amended: the constructor defaults maxiter = 100 and eta = 0.1
are truthy, so when AQC is constructed without caller-supplied values the
iteration cap and step size do not depend on the qubit count at all; only
when the caller explicitly passes falsy values (0 or None) are
size-dependent defaults filled, and those give a smaller qubit count FEWER
iterations and a larger step size than a larger qubit count. -/
theorem compute_optional_parameters_spec :
    (∀ n : ℕ,
      (_compute_optional_parameters AQC.defaults n).maxiter = 100 ∧
      (_compute_optional_parameters AQC.defaults n).eta = 1 / 10) ∧
    (∀ n₁ n₂ : ℕ, n₁ ≤ n₂ →
      (_compute_optional_parameters
          { AQC.defaults with maxiter := 0, eta := 0 } n₁).maxiter ≤
        (_compute_optional_parameters
          { AQC.defaults with maxiter := 0, eta := 0 } n₂).maxiter ∧
      (_compute_optional_parameters
          { AQC.defaults with maxiter := 0, eta := 0 } n₂).eta ≤
        (_compute_optional_parameters
          { AQC.defaults with maxiter := 0, eta := 0 } n₁).eta) := by
  constructor
  · intro n
    unfold _compute_optional_parameters
    split_ifs <;> simp [pyOr, pyOrRat, AQC.defaults]
  · intro n₁ n₂ h
    unfold _compute_optional_parameters
    split_ifs <;>
      first
        | omega
        | (constructor <;> norm_num [pyOr, pyOrRat])

/-- Witness for compute_optional_parameters_spec at n = 2 and n = 5. -/
theorem compute_optional_parameters_spec_witness :
    (_compute_optional_parameters
        { AQC.defaults with maxiter := 0, eta := 0 } 2).maxiter ≤
      (_compute_optional_parameters
        { AQC.defaults with maxiter := 0, eta := 0 } 5).maxiter ∧
    (_compute_optional_parameters
        { AQC.defaults with maxiter := 0, eta := 0 } 5).eta ≤
      (_compute_optional_parameters
        { AQC.defaults with maxiter := 0, eta := 0 } 2).eta :=
  compute_optional_parameters_spec.2 2 5 (by norm_num)

/-- Counterexample to claim C8 as stated: a 3 x 3 target matrix does not
make compile_unitary fail; the derivation silently rounds log2(3) to 2
although 3 is not a power of two. -/
theorem compile_unitary_num_qubits_three :
    compile_unitary_num_qubits 3 = 2 ∧ (2 : ℕ) ^ 2 ≠ 3 := by
  refine ⟨?_, by norm_num⟩
  unfold compile_unitary_num_qubits
  have h2 : (0 : ℝ) < Real.log 2 := Real.log_pos (by norm_num)
  have h8 : Real.log 8 = 3 * Real.log 2 := by
    rw [show (8 : ℝ) = 2 ^ (3 : ℕ) by norm_num, Real.log_pow]
    push_cast
    ring
  have h9 : Real.log 9 = 2 * Real.log 3 := by
    rw [show (9 : ℝ) = 3 ^ (2 : ℕ) by norm_num, Real.log_pow]
    push_cast
    ring
  have h89 : Real.log 8 ≤ Real.log 9 := Real.log_le_log (by norm_num) (by norm_num)
  have hub : Real.logb 2 3 < 2 := by
    rw [Real.logb, div_lt_iff₀ h2]
    have h4 : Real.log 4 = 2 * Real.log 2 := by
      rw [show (4 : ℝ) = 2 ^ (2 : ℕ) by norm_num, Real.log_pow]
      push_cast
      ring
    have := Real.log_lt_log (show (0 : ℝ) < 3 by norm_num)
      (show (3 : ℝ) < 4 by norm_num)
    linarith
  have hlb : (3 / 2 : ℝ) ≤ Real.logb 2 3 := by
    rw [Real.logb, le_div_iff₀ h2]
    nlinarith
  have hcast : ((3 : ℕ) : ℝ) = (3 : ℝ) := by norm_num
  rw [hcast, round_eq, Int.floor_eq_iff]
  constructor
  · push_cast
    linarith
  · push_cast
    linarith

/-- Claim C8, amended: compile_unitary derives the qubit count as
round(log2(side)); for a power-of-two side 2^k this yields exactly k, and
for any other side no failure occurs - the value is silently rounded and
any error surfaces only downstream. -/
theorem compile_unitary_num_qubits_pow :
    ∀ k : ℕ, compile_unitary_num_qubits (2 ^ k) = k := by
  intro k
  unfold compile_unitary_num_qubits
  have hcast : (((2 : ℕ) ^ k : ℕ) : ℝ) = (2 : ℝ) ^ k := by push_cast; ring
  rw [hcast, Real.logb_pow, Real.logb_self_eq_one (by norm_num), mul_one,
    round_natCast]

/-- Witness for compile_unitary_num_qubits_pow at k = 3. -/
theorem compile_unitary_num_qubits_pow_witness :
    compile_unitary_num_qubits (2 ^ 3) = 3 :=
  compile_unitary_num_qubits_pow 3

theorem SwapBits_testBit (v a b i : ℕ) :
    (SwapBits v a b).testBit i =
      if i = a then v.testBit b
      else if i = b then v.testBit a
      else v.testBit i := by
  unfold SwapBits
  have hy0 : ((v >>> a) ^^^ (v >>> b)).testBit 0 =
      ((v.testBit a).xor (v.testBit b)) := by
    rw [Nat.testBit_xor, Nat.testBit_shiftRight, Nat.testBit_shiftRight,
      Nat.add_zero, Nat.add_zero]
  have hmod : ((v >>> a) ^^^ (v >>> b)) % 2 =
      if ((v >>> a) ^^^ (v >>> b)).testBit 0 then 1 else 0 := by
    rw [Nat.testBit_zero]
    rcases Nat.mod_two_eq_zero_or_one ((v >>> a) ^^^ (v >>> b)) with h | h <;>
      simp [h]
  by_cases hab : v.testBit a = v.testBit b
  · have hx : ((v >>> a) ^^^ (v >>> b)) &&& 1 = 0 := by
      rw [Nat.and_one_is_mod, hmod, hy0, hab]
      simp
    simp only [hx, Nat.zero_shiftLeft, Nat.or_self, Nat.xor_zero]
    split_ifs with h1 h2
    · rw [h1, hab]
    · rw [h2, hab]
    · rfl
  · have hx : ((v >>> a) ^^^ (v >>> b)) &&& 1 = 1 := by
      rw [Nat.and_one_is_mod, hmod, hy0]
      have : (v.testBit a).xor (v.testBit b) = true := by
        rcases Bool.eq_false_or_eq_true (v.testBit a) with h | h <;>
          rcases Bool.eq_false_or_eq_true (v.testBit b) with h' | h' <;>
            simp [h, h'] at hab ⊢
      rw [this]
      simp
    simp only [hx, Nat.one_shiftLeft, Nat.testBit_xor,
      Nat.testBit_or, Nat.testBit_two_pow]
    split_ifs with h1 h2
    · have hba : decide (b = i) = false :=
        decide_eq_false fun h => hab (congrArg v.testBit (by omega))
      have haa : decide (a = i) = true := decide_eq_true (by rw [h1])
      rw [haa, hba, Bool.true_or, Bool.xor_true, h1]
      rcases Bool.eq_false_or_eq_true (v.testBit a) with h | h <;>
        rcases Bool.eq_false_or_eq_true (v.testBit b) with h' | h' <;>
          simp [h, h'] at hab ⊢
    · have haa : decide (a = i) = false :=
        decide_eq_false fun h => h1 (by rw [h])
      have hbb : decide (b = i) = true := decide_eq_true (by rw [h2])
      rw [haa, hbb, Bool.false_or, Bool.xor_true, h2]
      rcases Bool.eq_false_or_eq_true (v.testBit a) with h | h <;>
        rcases Bool.eq_false_or_eq_true (v.testBit b) with h' | h' <;>
          simp [h, h'] at hab ⊢
    · have hai : decide (a = i) = false :=
        decide_eq_false fun h => h1 h.symm
      have hbi : decide (b = i) = false :=
        decide_eq_false fun h => h2 h.symm
      rw [hai, hbi, Bool.or_self, Bool.xor_false]

theorem SwapBits_involutive (v a b : ℕ) :
    SwapBits (SwapBits v a b) a b = v := by
  apply Nat.eq_of_testBit_eq
  intro i
  rw [SwapBits_testBit, SwapBits_testBit, SwapBits_testBit, SwapBits_testBit]
  split_ifs <;> (try rfl) <;> (congr 1 <;> omega)

theorem SwapBits_lt {v a b n : ℕ} (ha : a < n) (hb : b < n)
    (hv : v < 2 ^ n) : SwapBits v a b < 2 ^ n := by
  apply Nat.lt_pow_two_of_testBit
  intro i hi
  rw [SwapBits_testBit]
  have hv' : ∀ j, n ≤ j → v.testBit j = false := fun j hj =>
    Nat.testBit_eq_false_of_lt
      (lt_of_lt_of_le hv (Nat.pow_le_pow_right (by norm_num) hj))
  rw [if_neg (by omega), if_neg (by omega)]
  exact hv' i hi

theorem bp1qFun_lt {n k : ℕ} (hk : k < n) {v : ℕ} (hv : v < 2 ^ n) :
    bp1qFun n k v < 2 ^ n := by
  unfold bp1qFun
  split_ifs with h
  · exact SwapBits_lt hk (by omega) hv
  · exact hv

theorem bp1qFun_involutive (n k v : ℕ) :
    bp1qFun n k (bp1qFun n k v) = v := by
  unfold bp1qFun
  split_ifs with h
  · exact SwapBits_involutive v k (n - 1)
  · rfl

theorem range_map_getD {n i : ℕ} (f : ℕ → ℕ) (h : i < n) :
    ((List.range n).map f).getD i 0 = f i := by
  have hlen : i < ((List.range n).map f).length := by simpa using h
  rw [List.getD_eq_getElem _ _ hlen, List.getElem_map, List.getElem_range]

theorem foldl_set_length (f : ℕ → ℕ) (L : List ℕ) :
    ∀ init : List ℕ,
      (L.foldl (fun inv i => inv.set (f i) i) init).length = init.length := by
  induction L with
  | nil => intro init; rfl
  | cons i L ih =>
      intro init
      rw [List.foldl_cons, ih, List.length_set]

theorem foldl_set_inverse (f : ℕ → ℕ) (N : ℕ)
    (hfr : ∀ v < N, f v < N) (hfi : ∀ v < N, f (f v) = v) :
    ∀ (L : List ℕ) (init : List ℕ), init.length = N →
      (∀ i ∈ L, i < N) → ∀ j, j < N →
      (L.foldl (fun inv i => inv.set (f i) i) init).getD j 0 =
        (if f j ∈ L then f j else init.getD j 0) := by
  intro L
  induction L with
  | nil =>
      intro init _ _ j _
      simp
  | cons i L ih =>
      intro init hlen hmem j hj
      rw [List.foldl_cons]
      have hi : i < N := hmem i (List.mem_cons_self i L)
      have hlen' : (init.set (f i) i).length = N := by
        rw [List.length_set]; exact hlen
      rw [ih (init.set (f i) i) hlen' (fun x hx => hmem x (List.mem_cons_of_mem i hx)) j hj]
      by_cases hjL : f j ∈ L
      · rw [if_pos hjL, if_pos (List.mem_cons_of_mem i hjL)]
      · rw [if_neg hjL]
        by_cases hji : f j = i
        · rw [if_pos (by rw [hji]; exact List.mem_cons_self i L)]
          have hfij : f i = j := by
            rw [← hji]
            exact hfi j hj
          have hfj : f i < init.length := by
            rw [hlen, hfij]
            exact hj
          have hset : (init.set (f i) i)[j]? = some i := by
            rw [← hfij]
            exact List.getElem?_set_eq hfj
          have : (init.set (f i) i).getD j 0 = i := by
            rw [List.getD_eq_getD_get?, List.get?_eq_getElem?, hset]
            rfl
          rw [this, hji]
        · rw [if_neg (by
            intro hmem'
            rcases List.mem_cons.mp hmem' with h | h
            · exact hji h
            · exact hjL h)]
          have hfij : ¬ f i = j := by
            intro heq
            apply hji
            rw [← heq, hfi i hi]
          rw [List.getD_eq_getD_get?, List.get?_eq_getElem?,
            List.getElem?_set_ne hfij, ← List.get?_eq_getElem?,
            ← List.getD_eq_getD_get?]

theorem foldl_congr_mem {α β : Type} (L : List β) (g h : α → β → α)
    (H : ∀ a : α, ∀ b ∈ L, g a b = h a b) :
    ∀ init, L.foldl g init = L.foldl h init := by
  induction L with
  | nil => intro init; rfl
  | cons b L ih =>
      intro init
      rw [List.foldl_cons, List.foldl_cons,
        H init b (List.mem_cons_self b L)]
      exact ih (fun a b' hb' => H a b' (List.mem_cons_of_mem b hb')) _

/-- Claim C10: for all 0 <= k < n <= 16, BitPermutation1Q n k is a
permutation of 0 .. 2^n - 1 that is an involution (p[p[v]] = v for every
v < 2^n), and InversePermutation applied to it returns the permutation
itself. -/
theorem bitPermutation1Q_involution (n k : ℕ) (hk : k < n) (hn : n ≤ 16) :
    (BitPermutation1Q n k).length = 2 ^ n ∧
    (∀ v ∈ BitPermutation1Q n k, v < 2 ^ n) ∧
    (BitPermutation1Q n k).Nodup ∧
    (∀ v < 2 ^ n,
      (BitPermutation1Q n k).getD ((BitPermutation1Q n k).getD v 0) 0 = v) ∧
    InversePermutation (BitPermutation1Q n k) = BitPermutation1Q n k := by
  have hlen : (BitPermutation1Q n k).length = 2 ^ n := by
    simp [BitPermutation1Q]
  have hgetD : ∀ v < 2 ^ n,
      (BitPermutation1Q n k).getD v 0 = bp1qFun n k v := by
    intro v hv
    exact range_map_getD _ hv
  have hinv : ∀ v < 2 ^ n,
      (BitPermutation1Q n k).getD ((BitPermutation1Q n k).getD v 0) 0 = v := by
    intro v hv
    rw [hgetD v hv, hgetD _ (bp1qFun_lt hk hv), bp1qFun_involutive]
  refine ⟨hlen, ?_, ?_, hinv, ?_⟩
  · intro v hv
    rw [BitPermutation1Q, List.mem_map] at hv
    obtain ⟨w, hw, rfl⟩ := hv
    exact bp1qFun_lt hk (List.mem_range.mp hw)
  · refine List.Nodup.map_on ?_ (List.nodup_range _)
    intro x hx y hy hxy
    have hx' := List.mem_range.mp hx
    have hy' := List.mem_range.mp hy
    have := congrArg (bp1qFun n k) hxy
    rwa [bp1qFun_involutive, bp1qFun_involutive] at this
  · -- InversePermutation equals the permutation itself
    unfold InversePermutation
    rw [hlen]
    have hstep : ∀ (inv : List ℕ), ∀ i ∈ List.range (2 ^ n),
        inv.set ((BitPermutation1Q n k).getD i 0) i =
          inv.set (bp1qFun n k i) i := by
      intro inv i hi
      rw [hgetD i (List.mem_range.mp hi)]
    rw [foldl_congr_mem (List.range (2 ^ n)) _ _ hstep]
    have hlen2 : (List.replicate (2 ^ n) 0).length = 2 ^ n :=
      List.length_replicate _ _
    apply List.ext_getElem
    · rw [foldl_set_length, hlen2, hlen]
    · intro j hj1 hj2
      have hjN : j < 2 ^ n := by
        rw [foldl_set_length, hlen2] at hj1
        exact hj1
      have hmain := foldl_set_inverse (bp1qFun n k) (2 ^ n)
        (fun v hv => bp1qFun_lt hk hv) (fun v _ => bp1qFun_involutive n k v)
        (List.range (2 ^ n)) (List.replicate (2 ^ n) 0) hlen2
        (fun i hi => List.mem_range.mp hi) j hjN
      rw [if_pos (List.mem_range.mpr (bp1qFun_lt hk hjN))] at hmain
      have hl : (List.foldl (fun inv i => inv.set (bp1qFun n k i) i)
          (List.replicate (2 ^ n) 0) (List.range (2 ^ n))).getD j 0 =
          _ := hmain
      rw [List.getD_eq_getElem _ _ hj1] at hmain
      rw [hmain]
      have : (BitPermutation1Q n k).getD j 0 = bp1qFun n k j := hgetD j hjN
      rw [List.getD_eq_getElem _ _ hj2] at this
      rw [this]

/-- Witness for bitPermutation1Q_involution at n = 2, k = 0. -/
theorem bitPermutation1Q_involution_witness :
    (BitPermutation1Q 2 0).length = 2 ^ 2 ∧
    (∀ v ∈ BitPermutation1Q 2 0, v < 2 ^ 2) ∧
    (BitPermutation1Q 2 0).Nodup ∧
    (∀ v < 2 ^ 2,
      (BitPermutation1Q 2 0).getD ((BitPermutation1Q 2 0).getD v 0) 0 = v) ∧
    InversePermutation (BitPermutation1Q 2 0) = BitPermutation1Q 2 0 :=
  bitPermutation1Q_involution 2 0 (by decide) (by decide)

theorem npKron_mul {a b : ℕ} (A C : Mat a) (B D : Mat b) :
    npKron A B * npKron C D = npKron (A * C) (B * D) := by
  unfold npKron
  rw [Matrix.reindex_apply, Matrix.reindex_apply, Matrix.submatrix_mul_equiv,
    Matrix.mul_kronecker_mul, ← Matrix.reindex_apply]

theorem npKron_conjTranspose {a b : ℕ} (A : Mat a) (B : Mat b) :
    (npKron A B)ᴴ = npKron Aᴴ Bᴴ := by
  unfold npKron
  rw [Matrix.reindex_apply, Matrix.conjTranspose_submatrix,
    ← Matrix.reindex_apply]
  congr 1
  ext ⟨i1, i2⟩ ⟨j1, j2⟩
  simp [Matrix.conjTranspose_apply, star_mul']

theorem npKron_one_one {a b : ℕ} : npKron (1 : Mat a) (1 : Mat b) = 1 := by
  unfold npKron
  rw [Matrix.one_kronecker_one, Matrix.reindex_apply,
    Matrix.submatrix_one_equiv]

theorem castMat_mul {a b : ℕ} (h : a = b) (A B : Mat a) :
    castMat h A * castMat h B = castMat h (A * B) := by
  unfold castMat
  rw [Matrix.reindex_apply, Matrix.reindex_apply, Matrix.submatrix_mul_equiv,
    ← Matrix.reindex_apply]

theorem castMat_conjTranspose {a b : ℕ} (h : a = b) (A : Mat a) :
    (castMat h A)ᴴ = castMat h Aᴴ := by
  unfold castMat
  rw [Matrix.reindex_apply, Matrix.conjTranspose_submatrix,
    ← Matrix.reindex_apply]

theorem castMat_one {a b : ℕ} (h : a = b) :
    castMat h (1 : Mat a) = 1 := by
  unfold castMat
  rw [Matrix.reindex_apply, Matrix.submatrix_one_equiv]

theorem IsUnitary.one {d : ℕ} : IsUnitary (1 : Mat d) := by
  unfold IsUnitary
  simp

theorem IsUnitary.mul {d : ℕ} {A B : Mat d}
    (hA : IsUnitary A) (hB : IsUnitary B) : IsUnitary (A * B) := by
  unfold IsUnitary at hA hB ⊢
  rw [Matrix.conjTranspose_mul, Matrix.mul_assoc,
    ← Matrix.mul_assoc Aᴴ A B, hA, Matrix.one_mul, hB]

theorem IsUnitary.npKron {a b : ℕ} {A : Mat a} {B : Mat b}
    (hA : IsUnitary A) (hB : IsUnitary B) : IsUnitary (npKron A B) := by
  unfold IsUnitary at hA hB ⊢
  rw [npKron_conjTranspose, npKron_mul, hA, hB, npKron_one_one]

theorem IsUnitary.castMat {a b : ℕ} (h : a = b) {A : Mat a}
    (hA : IsUnitary A) : IsUnitary (castMat h A) := by
  unfold IsUnitary at hA ⊢
  rw [castMat_conjTranspose, castMat_mul, hA, castMat_one]

theorem op_ry_unitary (t : ℝ) : IsUnitary (op_ry t) := by
  have key : ∀ c s : ℝ, s ^ 2 + c ^ 2 = 1 →
      IsUnitary (!![(c : ℂ), (-s : ℝ); (s : ℝ), (c : ℂ)]) := by
    intro c s h
    unfold IsUnitary
    ext i j
    fin_cases i <;> fin_cases j <;>
      simp [Matrix.mul_apply, Fin.sum_univ_two, Matrix.conjTranspose_apply,
        Matrix.one_apply, Complex.ext_iff] <;>
      nlinarith [h]
  exact key _ _ (Real.sin_sq_add_cos_sq (t / 2))

theorem op_rx_unitary (t : ℝ) : IsUnitary (op_rx t) := by
  have key : ∀ c s : ℝ, s ^ 2 + c ^ 2 = 1 →
      IsUnitary (!![(c : ℂ), -Complex.I * s;
                    -Complex.I * s, (c : ℂ)]) := by
    intro c s h
    unfold IsUnitary
    ext i j
    fin_cases i <;> fin_cases j <;>
      simp [Matrix.mul_apply, Fin.sum_univ_two, Matrix.conjTranspose_apply,
        Matrix.one_apply, Complex.ext_iff] <;>
      nlinarith [h]
  exact key _ _ (Real.sin_sq_add_cos_sq (t / 2))

theorem op_rz_unitary (t : ℝ) : IsUnitary (op_rz t) := by
  have key : ∀ z : ℂ, (starRingEnd ℂ) z = z →
      IsUnitary (!![Complex.exp (-z * Complex.I), 0;
                    0, Complex.exp (z * Complex.I)]) := by
    intro z hz
    have h1 : (starRingEnd ℂ) (Complex.exp (-(z * Complex.I))) =
        Complex.exp (z * Complex.I) := by
      rw [← Complex.exp_conj]
      congr 1
      rw [RingHom.map_neg, RingHom.map_mul, hz, Complex.conj_I]
      ring
    have h2 : (starRingEnd ℂ) (Complex.exp (z * Complex.I)) =
        Complex.exp (-(z * Complex.I)) := by
      rw [← Complex.exp_conj]
      congr 1
      rw [RingHom.map_mul, hz, Complex.conj_I]
      ring
    have h3 : Complex.exp (z * Complex.I) *
        Complex.exp (-(z * Complex.I)) = 1 := by
      rw [← Complex.exp_add]
      ring_nf
      exact Complex.exp_zero
    have h4 : Complex.exp (-(z * Complex.I)) *
        Complex.exp (z * Complex.I) = 1 := by
      rw [← Complex.exp_add]
      ring_nf
      exact Complex.exp_zero
    unfold IsUnitary
    ext i j
    fin_cases i <;> fin_cases j <;>
      simp [Matrix.mul_apply, Fin.sum_univ_two, Matrix.conjTranspose_apply,
        Matrix.one_apply, h1, h2, h3, h4]
  exact key ((t : ℂ) / 2) (by
    rw [map_div₀, Complex.conj_ofReal, map_ofNat])

theorem op_unitary_unitary {u : Mat 2} (hu : IsUnitary u) (n q : ℕ) :
    IsUnitary (op_unitary u n q) := by
  unfold op_unitary
  split_ifs with h
  · exact IsUnitary.castMat _
      (IsUnitary.npKron IsUnitary.one (IsUnitary.npKron hu IsUnitary.one))
  · exact IsUnitary.one

theorem cnotPermFn_lt {n q1 q2 : ℕ} (hq2 : 1 ≤ q2) (hq2n : q2 ≤ n) {v : ℕ}
    (hv : v < 2 ^ n) : cnotPermFn n q1 q2 v < 2 ^ n := by
  unfold cnotPermFn
  split_ifs with h
  · apply Nat.lt_pow_two_of_testBit
    intro i hi
    rw [Nat.one_shiftLeft, Nat.testBit_xor, Nat.testBit_two_pow]
    have hv' : v.testBit i = false :=
      Nat.testBit_eq_false_of_lt
        (lt_of_lt_of_le hv (Nat.pow_le_pow_right (by norm_num) hi))
    rw [hv', decide_eq_false (by omega)]
    rfl
  · exact hv

theorem cnotPermFn_involutive {n q1 q2 : ℕ} (h1 : q1 ≤ n) (h2 : q2 ≤ n)
    (h3 : 1 ≤ q1) (h4 : 1 ≤ q2) (hne : q1 ≠ q2) (v : ℕ) :
    cnotPermFn n q1 q2 (cnotPermFn n q1 q2 v) = v := by
  unfold cnotPermFn
  by_cases hc : v.testBit (n - q1) = true
  · rw [if_pos hc]
    have hmask : (v ^^^ (1 <<< (n - q2))).testBit (n - q1) = true := by
      rw [Nat.one_shiftLeft, Nat.testBit_xor, Nat.testBit_two_pow,
        decide_eq_false (show ¬ n - q2 = n - q1 by omega), hc]
      rfl
    rw [if_pos hmask, Nat.xor_assoc, Nat.xor_self, Nat.xor_zero]
  · rw [if_neg hc, if_neg hc]

theorem op_cnot_conjTranspose {n q1 q2 : ℕ} (h1 : q1 ≤ n) (h2 : q2 ≤ n)
    (h3 : 1 ≤ q1) (h4 : 1 ≤ q2) (hne : q1 ≠ q2) :
    (op_cnot n q1 q2)ᴴ = op_cnot n q1 q2 := by
  ext i j
  rw [Matrix.conjTranspose_apply]
  show star (if (j : ℕ) = cnotPermFn n q1 q2 (i : ℕ) then (1 : ℂ) else 0) =
    (if (i : ℕ) = cnotPermFn n q1 q2 (j : ℕ) then (1 : ℂ) else 0)
  have hiff : (j : ℕ) = cnotPermFn n q1 q2 (i : ℕ) ↔
      (i : ℕ) = cnotPermFn n q1 q2 (j : ℕ) := by
    constructor
    · intro h
      rw [h, cnotPermFn_involutive h1 h2 h3 h4 hne]
    · intro h
      rw [h, cnotPermFn_involutive h1 h2 h3 h4 hne]
  by_cases hij : (j : ℕ) = cnotPermFn n q1 q2 (i : ℕ)
  · rw [if_pos hij, if_pos (hiff.mp hij), star_one]
  · rw [if_neg hij, if_neg (fun h => hij (hiff.mpr h)), star_zero]

theorem op_cnot_mul_self {n q1 q2 : ℕ} (h1 : q1 ≤ n) (h2 : q2 ≤ n)
    (h3 : 1 ≤ q1) (h4 : 1 ≤ q2) (hne : q1 ≠ q2) :
    op_cnot n q1 q2 * op_cnot n q1 q2 = 1 := by
  ext i j
  rw [Matrix.mul_apply]
  have hperm : cnotPermFn n q1 q2 (j : ℕ) < 2 ^ n := cnotPermFn_lt h4 h2 j.isLt
  set pj : Fin (2 ^ n) := ⟨cnotPermFn n q1 q2 (j : ℕ), hperm⟩ with hpj
  have hsum : ∀ k : Fin (2 ^ n),
      op_cnot n q1 q2 i k * op_cnot n q1 q2 k j =
        if k = pj then op_cnot n q1 q2 i k else 0 := by
    intro k
    show (if (i : ℕ) = cnotPermFn n q1 q2 (k : ℕ) then (1 : ℂ) else 0) *
        (if (k : ℕ) = cnotPermFn n q1 q2 (j : ℕ) then (1 : ℂ) else 0) = _
    by_cases hk : k = pj
    · rw [if_pos hk,
        if_pos (show (k : ℕ) = cnotPermFn n q1 q2 (j : ℕ) by rw [hk]),
        mul_one]
      rfl
    · rw [if_neg hk, if_neg (fun h => hk (Fin.ext h)), mul_zero]
  rw [Finset.sum_congr rfl (fun k _ => hsum k), Finset.sum_ite_eq',
    if_pos (Finset.mem_univ pj)]
  show (if (i : ℕ) = cnotPermFn n q1 q2 (pj : ℕ) then (1 : ℂ) else 0) = _
  have hinv : cnotPermFn n q1 q2 (pj : ℕ) = (j : ℕ) :=
    cnotPermFn_involutive h1 h2 h3 h4 hne j
  rw [hinv, Matrix.one_apply]
  by_cases hij : i = j
  · rw [if_pos (by rw [hij]), if_pos hij]
  · rw [if_neg (fun h => hij (Fin.ext h)), if_neg hij]

theorem op_cnot_unitary {n q1 q2 : ℕ} (h1 : q1 ≤ n) (h2 : q2 ≤ n)
    (h3 : 1 ≤ q1) (h4 : 1 ≤ q2) (hne : q1 ≠ q2) :
    IsUnitary (op_cnot n q1 q2) := by
  unfold IsUnitary
  rw [op_cnot_conjTranspose h1 h2 h3 h4 hne,
    op_cnot_mul_self h1 h2 h3 h4 hne]

theorem cnot_unit_unitary {n q1 q2 : ℕ} (h1 : q1 ≤ n) (h2 : q2 ≤ n)
    (h3 : 1 ≤ q1) (h4 : 1 ≤ q2) (hne : q1 ≠ q2) (t0 t1 t2 t3 : ℝ) :
    IsUnitary (cnot_unit n q1 q2 t0 t1 t2 t3) := by
  unfold cnot_unit
  exact IsUnitary.mul
    (IsUnitary.mul
      (op_unitary_unitary (IsUnitary.mul (op_rx_unitary t3) (op_ry_unitary t2)) n q2)
      (op_unitary_unitary (IsUnitary.mul (op_rz_unitary t1) (op_ry_unitary t0)) n q1))
    (op_cnot_unitary h1 h2 h3 h4 hne)

theorem rotGate_unitary (thetas : ℕ → ℝ) (base k : ℕ) :
    IsUnitary (rotGate thetas base k) := by
  unfold rotGate
  exact IsUnitary.mul (IsUnitary.mul (op_rz_unitary _) (op_ry_unitary _))
    (op_rz_unitary _)

theorem rotLayer_unitary (thetas : ℕ → ℝ) (base : ℕ) :
    ∀ m : ℕ, IsUnitary (rotLayer thetas base m) := by
  intro m
  induction m with
  | zero => exact IsUnitary.one
  | succ m ih =>
      show IsUnitary (castMat (pow_succ 2 m).symm
        (npKron (rotLayer thetas base m) (rotGate thetas base m)))
      exact IsUnitary.castMat _
        (IsUnitary.npKron ih (rotGate_unitary thetas base m))

theorem foldl_mul_unitary {d : ℕ} (f : ℕ → Mat d) :
    ∀ (lst : List ℕ) (acc : Mat d), IsUnitary acc →
      (∀ l ∈ lst, IsUnitary (f l)) →
      IsUnitary (lst.foldl (fun V l => f l * V) acc) := by
  intro lst
  induction lst with
  | nil => intro acc hacc _; exact hacc
  | cons l lst ih =>
      intro acc hacc hmem
      rw [List.foldl_cons]
      exact ih (f l * acc)
        (IsUnitary.mul (hmem l (List.mem_cons_self l lst)) hacc)
        (fun x hx => hmem x (List.mem_cons_of_mem l hx))

/-- Claim C5: for every n >= 1, every valid CNOT structure and every real
parameter vector, the matrix returned by ParametricCircuit.to_numpy is
unitary (exactly so, in exact arithmetic). -/
theorem to_numpy_unitary (n : ℕ) (hn : 1 ≤ n) (cnots : List (ℕ × ℕ))
    (hv : ∀ p ∈ cnots, validColumn n p) (thetas : ℕ → ℝ) :
    IsUnitary (to_numpy n cnots thetas) := by
  unfold to_numpy
  apply IsUnitary.mul
  · apply foldl_mul_unitary _ _ _ IsUnitary.one
    intro l hl
    have hlen : l < cnots.length := List.mem_range.mp hl
    have hmem : cnots.getD l (0, 0) ∈ cnots := by
      rw [List.getD_eq_getElem _ _ hlen]
      exact List.getElem_mem hlen
    obtain ⟨hne, ha1, ha2, hb1, hb2⟩ := hv _ hmem
    exact cnot_unit_unitary ha2 hb2 ha1 hb1 hne _ _ _ _
  · exact rotLayer_unitary thetas _ n

/-- Witness for to_numpy_unitary at n = 2 with a single CNOT unit and zero
parameters. -/
theorem to_numpy_unitary_witness :
    IsUnitary (to_numpy 2 [(1, 2)] fun _ => 0) :=
  to_numpy_unitary 2 (by decide) [(1, 2)] (by decide) fun _ => 0

theorem update_matrix_zero {d : ℕ} (idx : ℕ) :
    Function.update (fun _ => (0 : Mat d)) idx 0 = fun _ => 0 := by
  funext x
  by_cases hx : x = idx <;> simp [Function.update, hx]

theorem update_real_zero (idx : ℕ) :
    Function.update (fun _ => (0 : ℝ)) idx 0 = fun _ => 0 := by
  funext x
  by_cases hx : x = idx <;> simp [Function.update, hx]

theorem rightLoop_zero {d : ℕ} :
    ∀ (lst : List ℕ) (M : Mat d), lst ≠ [] →
      lst.foldl (fun st idx =>
        let m := st.1 * st.2 idx
        (m, Function.update st.2 idx m))
        (M, fun _ => (0 : Mat d)) = (0, fun _ => 0) := by
  intro lst
  induction lst with
  | nil => intro M h; exact absurd rfl h
  | cons idx rest ih =>
      intro M _
      simp only [List.foldl_cons, mul_zero, update_matrix_zero]
      cases rest with
      | nil => rfl
      | cons b r => exact ih 0 (by simp)

theorem leftLoop_zero {d : ℕ} :
    ∀ (lst : List ℕ) (M : Mat d), lst ≠ [] →
      lst.foldl (fun st idx =>
        let m := st.2 idx * st.1
        (m, Function.update st.2 idx m))
        (M, fun _ => (0 : Mat d)) = (0, fun _ => 0) := by
  intro lst
  induction lst with
  | nil => intro M h; exact absurd rfl h
  | cons idx rest ih =>
      intro M _
      simp only [List.foldl_cons, zero_mul, update_matrix_zero]
      cases rest with
      | nil => rfl
      | cons b r => exact ih 0 (by simp)

theorem cnot_right_products_of_pos {d num_cnots : ℕ} (h : 1 ≤ num_cnots) :
    cnot_right_products d num_cnots = (0, fun _ => 0) := by
  unfold cnot_right_products
  apply rightLoop_zero
  simp [List.reverse_eq_nil_iff, List.range_eq_nil]
  omega

theorem cnot_left_products_of_pos {d num_cnots : ℕ} (h : 1 ≤ num_cnots) :
    cnot_left_products d num_cnots = (0, fun _ => 0) := by
  unfold cnot_left_products
  apply leftLoop_zero
  simp [List.range_eq_nil]
  omega

theorem derEntry_zero {n : ℕ} (target : Mat (2 ^ n)) :
    derEntry target 0 = 0 := by
  unfold derEntry
  rw [smul_zero, Matrix.conjTranspose_zero, Matrix.zero_mul,
    Matrix.trace_zero]
  simp

theorem foldl_update_zero_fun (g : ℕ → ℕ) (v : ℕ → ℝ) :
    ∀ lst : List ℕ, (∀ i ∈ lst, v i = 0) →
      lst.foldl (fun dd i => Function.update dd (g i) (v i))
        (fun _ => (0 : ℝ)) = fun _ => 0 := by
  intro lst
  induction lst with
  | nil => intro _; rfl
  | cons i rest ih =>
      intro hv
      rw [List.foldl_cons, hv i (List.mem_cons_self i rest),
        update_real_zero]
      exact ih fun x hx => hv x (List.mem_cons_of_mem i hx)

theorem frobNormSq_neg {d : ℕ} (A : Mat d) :
    frobNormSq (-A) = frobNormSq A := by
  unfold frobNormSq
  refine Finset.sum_congr rfl fun i _ => Finset.sum_congr rfl fun j _ => ?_
  rw [Matrix.neg_apply, Complex.normSq_neg]

theorem frobNormSq_one (d : ℕ) :
    frobNormSq (1 : Mat d) = d := by
  unfold frobNormSq
  have hrow : ∀ i : Fin d, ∑ j, Complex.normSq ((1 : Mat d) i j) = 1 := by
    intro i
    have : ∀ j : Fin d, Complex.normSq ((1 : Mat d) i j) =
        if j = i then 1 else 0 := by
      intro j
      rw [Matrix.one_apply]
      by_cases hij : i = j
      · rw [if_pos hij, if_pos hij.symm, Complex.normSq_one]
      · rw [if_neg hij, if_neg (fun h => hij h.symm), Complex.normSq_zero]
    rw [Finset.sum_congr rfl fun j _ => this j, Finset.sum_ite_eq',
      if_pos (Finset.mem_univ i)]
  rw [Finset.sum_congr rfl fun i _ => hrow i, Finset.sum_const,
    Finset.card_univ, Fintype.card_fin, nsmul_eq_mul, mul_one]

theorem frobNormSq_nonneg {d : ℕ} (A : Mat d) : 0 ≤ frobNormSq A := by
  unfold frobNormSq
  exact Finset.sum_nonneg fun i _ =>
    Finset.sum_nonneg fun j _ => Complex.normSq_nonneg _

theorem frobNorm_sq {d : ℕ} (A : Mat d) :
    frobNorm A ^ 2 = frobNormSq A := by
  unfold frobNorm
  exact Real.sq_sqrt (frobNormSq_nonneg A)

theorem get_gradient_len_two {n : ℕ} (cnots : List (ℕ × ℕ))
    (h : cnots.length = 2) (thetas : ℕ → ℝ) (target : Mat (2 ^ n)) :
    get_gradient n cnots thetas target =
      .ok (0.5 * frobNorm (-target) ^ 2, fun _ => 0) := by
  unfold get_gradient
  simp only [h]
  rw [cnot_right_products_of_pos (by norm_num),
    cnot_left_products_of_pos (by norm_num)]
  have hshift : ∀ (c : ℕ) (lst : List ℕ),
      lst.foldl (fun dd i => Function.update dd (c + i) (0 : ℝ))
        (fun _ => (0 : ℝ)) = fun _ => (0 : ℝ) := by
    intro c lst
    induction lst with
    | nil => rfl
    | cons i rest ih => rw [List.foldl_cons, update_real_zero]; exact ih
  simp [List.foldlM, List.range_succ, zero_mul, mul_zero, derEntry_zero,
    update_real_zero, zero_sub, hshift, Except.bind]
  simp [Bind.bind, Except.bind, update_real_zero, hshift]

theorem op_ry_zero : op_ry 0 = 1 := by
  unfold op_ry
  norm_num
  exact (Matrix.one_fin_two).symm

theorem op_rx_zero : op_rx 0 = 1 := by
  unfold op_rx
  norm_num
  exact (Matrix.one_fin_two).symm

theorem op_rz_zero : op_rz 0 = 1 := by
  unfold op_rz
  norm_num [Complex.exp_zero]
  exact (Matrix.one_fin_two).symm

theorem op_unitary_one (n q : ℕ) : op_unitary (1 : Mat 2) n q = 1 := by
  unfold op_unitary
  split
  · rw [npKron_one_one, npKron_one_one, castMat_one]
  · rfl

theorem rotGate_zero (base k : ℕ) : rotGate (fun _ => 0) base k = 1 := by
  unfold rotGate
  rw [op_rz_zero, op_ry_zero, mul_one, mul_one]

theorem rotLayer_zero (base : ℕ) :
    ∀ m : ℕ, rotLayer (fun _ => 0) base m = 1 := by
  intro m
  induction m with
  | zero => rfl
  | succ m ih =>
      show castMat (pow_succ 2 m).symm
        (npKron (rotLayer (fun _ => 0) base m)
          (rotGate (fun _ => 0) base m)) = 1
      rw [ih, rotGate_zero, npKron_one_one, castMat_one]

theorem cnot_unit_zero (n q1 q2 : ℕ) :
    cnot_unit n q1 q2 0 0 0 0 = op_cnot n q1 q2 := by
  unfold cnot_unit
  rw [op_rx_zero, op_ry_zero, op_rz_zero, one_mul, op_unitary_one,
    op_unitary_one, one_mul, one_mul]

theorem to_numpy_two_identity :
    to_numpy 2 [(1, 2), (1, 2)] (fun _ => 0) = 1 := by
  unfold to_numpy
  simp only [List.length_cons, List.length_nil, List.range_succ,
    List.range_zero, List.nil_append, List.cons_append, List.foldl_cons,
    List.foldl_nil, List.getD_cons_zero, List.getD_cons_succ]
  rw [rotLayer_zero, mul_one, cnot_unit_zero, mul_one,
    op_cnot_mul_self (by norm_num) (by norm_num) (by norm_num) (by norm_num)
      (by norm_num)]

theorem get_gradient_two_identity :
    get_gradient 2 [(1, 2), (1, 2)] (fun _ => 0) (1 : Mat (2 ^ 2)) =
      .ok (2, fun _ => 0) := by
  rw [get_gradient_len_two [(1, 2), (1, 2)] rfl]
  have h2 : (0.5 : ℝ) * frobNorm (-(1 : Mat (2 ^ 2))) ^ 2 = 2 := by
    rw [frobNorm_sq, frobNormSq_neg, frobNormSq_one]
    norm_num
  rw [h2]

/-- Claim C1: refuted (code bug). At n = 2 with the valid CNOT structure
[(1, 2), (1, 2)] and all 4L + 3n = 14 parameters zero, the circuit matrix
produced by ParametricCircuit.to_numpy equals the identity target, so the
specified objective (1/2)*||V(thetas) - target||_F^2 is 0; yet
DefaultGradient.get_gradient returns objective 2 = (1/2)*||target||_F^2,
because the running-product loops (gradient.py lines 122-134) multiply
slices of the zero-initialised collections instead of
cnot_unit_collection, making the circuit matrix identically zero. -/
theorem get_gradient_objective_mismatch :
    get_gradient 2 [(1, 2), (1, 2)] (fun _ => 0) (1 : Mat (2 ^ 2)) =
        .ok (2, fun _ => 0) ∧
      to_numpy 2 [(1, 2), (1, 2)] (fun _ => 0) = (1 : Mat (2 ^ 2)) ∧
      (0.5 : ℝ) * frobNorm ((1 : Mat (2 ^ 2)) - (1 : Mat (2 ^ 2))) ^ 2 = 0 ∧
      (2 : ℝ) ≠ 0 := by
  refine ⟨get_gradient_two_identity, to_numpy_two_identity, ?_, by norm_num⟩
  rw [sub_self, frobNorm_sq]
  unfold frobNormSq
  simp

/-- Claim C2: refuted (code bug). get_gradient raises on well-formed input:
with the valid three-unit structure [(1, 2), (2, 1), (1, 2)] at n = 2 the
middle derivative branch (gradient.py line 213) reads the undefined names
right_cnot_collection / left_cnot_collection and raises a NameError, and
with a single unit the cnot_index == 0 branch multiplies by the empty
slice cnot_right_collection[:, d : 2d], raising a ValueError - neither is
a dimension error, and no dimension validation happens at all. -/
theorem get_gradient_raises_on_wellformed :
    get_gradient 2 [(1, 2), (2, 1), (1, 2)] (fun _ => 0) (1 : Mat (2 ^ 2)) =
        .error (.nameError "name right_cnot_collection is not defined") ∧
      get_gradient 2 [(1, 2)] (fun _ => 0) (1 : Mat (2 ^ 2)) =
        .error (.valueError "shapes are not aligned") := by
  constructor
  · rfl
  · rfl

end AQCVerify
